import Mathlib

/-!
Shallow embedding of src/src/Parameter_Scan.cpp of DaMaSCUS-SUN.

Machine doubles are idealized as rationals.  The external physics pipeline
invoked at every grid cell (solar-model rate interpolation, Simulation_Data
generation, Reflection_Spectrum construction, detector.P_Value) is abstracted
as an oracle pv : DM_Particle → ℚ returning the p-value the detector reports
for the current particle state (mass and interaction parameter); likewise
libphysica::Find_Root, libphysica::Interpolation and the std exp/log functions
are abstracted as function parameters.  The scan additionally records a trace
of the pipeline evaluations it performs, one CellEval per visited grid cell,
which is the basis for the control-flow theorems below.
-/

namespace DaMaSCUS_SUN

/-- State of obscura::DM_Particle that Parameter_Scan.cpp reads and writes:
the mass (DM.mass / Set_Mass) and the interaction parameter
(Get_Interaction_Parameter / Set_Interaction_Parameter). -/
structure DM_Particle where
  mass : ℚ
  coupling : ℚ
deriving DecidableEq

/-- Members of class Parameter_Scan: the two axes, the sample size and the
p-value grid indexed as p_value_grid[coupling index][mass index]. -/
structure Parameter_Scan where
  DM_masses : List ℚ
  couplings : List ℚ
  sample_size : ℕ
  p_value_grid : List (List ℚ)
deriving DecidableEq

/-- Constructor Parameter_Scan(masses, coupl, samplesize) (lines 100-106):
copies both axes, sorts each ascending with std::sort, and initializes the
grid to couplings.size() rows of DM_masses.size() entries, all 1.0. -/
def Parameter_Scan.init (masses coupl : List ℚ) (samplesize : ℕ) : Parameter_Scan :=
  let DM_masses := masses.insertionSort (· ≤ ·)
  let couplings := coupl.insertionSort (· ≤ ·)
  { DM_masses := DM_masses
    couplings := couplings
    sample_size := samplesize
    p_value_grid := List.replicate couplings.length (List.replicate DM_masses.length 1) }

/-- Record of one evaluation of the external pipeline at a grid cell during
Perform_Scan: the outer (coupling) loop counter i, the inner (mass) loop
counter j, the values of last_excluded_mass_index and row_exclusion in force
when the cell's p-value is tested, and the p-value itself. -/
structure CellEval where
  i : ℕ
  j : ℕ
  lastBefore : ℕ
  exclBefore : Bool
  p : ℚ
deriving DecidableEq

/-- Result of one pass of the inner mass loop of Perform_Scan. -/
structure RowResult where
  row : List ℚ
  row_exclusion : Bool
  last_excluded_mass_index : ℕ
  DM : DM_Particle
  trace : List CellEval
deriving DecidableEq

/-- Result of the outer coupling loop of Perform_Scan. -/
structure ScanResult where
  p_value_grid : List (List ℚ)
  last_excluded_mass_index : ℕ
  DM : DM_Particle
  trace : List CellEval
deriving DecidableEq

/-- The hardcoded exclusion threshold 0.1 of line 138, as an exact rational
(see pThreshold_eq). -/
def pThreshold : ℚ := mkRat 1 10

/-- The numerical floor 1.0e-100 of line 135, as an exact rational
(see pFloor_eq). -/
def pFloor : ℚ := mkRat 1 (10 ^ 100)

theorem pThreshold_eq : pThreshold = 1 / 10 := by
  unfold pThreshold
  rw [Rat.mkRat_eq_div]
  norm_num

theorem pFloor_eq : pFloor = 1 / 10 ^ 100 := by
  unfold pFloor
  rw [Rat.mkRat_eq_div]
  push_cast
  norm_num

/-- Clamp of line 135: p_value_grid[...] = (p < 1.0e-100) ? 0.0 : p. -/
def clampP (p : ℚ) : ℚ := if p < pFloor then 0 else p

/-- Inner mass loop of Perform_Scan (lines 120-145), entered at loop counter j
with fuel remaining iterations; the loop bound j < DM_masses.size() is encoded
by fuel = DM_masses.size() - j at every call.  State: the grid row being
written, row_exclusion, last_excluded_mass_index and the particle. -/
def scanRowGo (pv : DM_Particle → ℚ) (masses : List ℚ) :
    ℕ → ℕ → List ℚ → Bool → ℕ → DM_Particle → ℕ → RowResult
  | 0, _, row, excl, last, DM, _ => ⟨row, excl, last, DM, []⟩
  | fuel + 1, j, row, excl, last, DM, i =>
    let index_mass := masses.length - 1 - j
    let DM1 : DM_Particle := { DM with mass := masses.getD index_mass 0 }
    let p := pv DM1
    let row1 := row.set index_mass (clampP p)
    let e : CellEval := ⟨i, j, last, excl, p⟩
    if p < pThreshold then
      let r := scanRowGo pv masses fuel (j + 1) row1 true j DM1 i
      { r with trace := e :: r.trace }
    else if excl = true ∨ last + 1 < j then
      ⟨row1, excl, last, DM1, [e]⟩
    else
      let r := scanRowGo pv masses fuel (j + 1) row1 excl last DM1 i
      { r with trace := e :: r.trace }

/-- Outer coupling loop of Perform_Scan (lines 115-148), entered at loop
counter i with fuel remaining iterations (fuel = couplings.size() - i). -/
def scanRowsGo (pv : DM_Particle → ℚ) (masses couplings : List ℚ) :
    ℕ → ℕ → List (List ℚ) → ℕ → DM_Particle → ScanResult
  | 0, _, grid, last, DM => ⟨grid, last, DM, []⟩
  | fuel + 1, i, grid, last, DM =>
    let index_coupling := couplings.length - 1 - i
    let DM1 : DM_Particle := { DM with coupling := couplings.getD index_coupling 0 }
    let r := scanRowGo pv masses masses.length 0 (grid.getD index_coupling []) false last DM1 i
    let grid1 := grid.set index_coupling r.row
    if r.row_exclusion = true then
      let rest := scanRowsGo pv masses couplings fuel (i + 1) grid1
        r.last_excluded_mass_index r.DM
      { rest with trace := r.trace ++ rest.trace }
    else
      ⟨grid1, r.last_excluded_mass_index, r.DM, r.trace⟩

/-- Perform_Scan (lines 108-151): saves the particle's mass and coupling, runs
the double loop with last_excluded_mass_index initialized to DM_masses.size(),
then restores the particle's mass and coupling.  Returns the updated session
together with the particle as left behind by the call. -/
def Perform_Scan (pv : DM_Particle → ℚ) (s : Parameter_Scan) (DM : DM_Particle) :
    Parameter_Scan × DM_Particle :=
  let mDM_original := DM.mass
  let coupling_original := DM.coupling
  let r := scanRowsGo pv s.DM_masses s.couplings s.couplings.length 0 s.p_value_grid
    s.DM_masses.length DM
  ({ s with p_value_grid := r.p_value_grid },
    { r.DM with mass := mDM_original, coupling := coupling_original })

/-- The sequence of pipeline evaluations (visited grid cells) performed by a
Perform_Scan call, in execution order. -/
def Perform_Scan_trace (pv : DM_Particle → ℚ) (s : Parameter_Scan) (DM : DM_Particle) :
    List CellEval :=
  (scanRowsGo pv s.DM_masses s.couplings s.couplings.length 0 s.p_value_grid
    s.DM_masses.length DM).trace

/-- Guard of line 158: p_value_grid.back()[i] < 1 - certainty_level, deciding
whether mass column i contributes an entry to the limit curve. -/
def Limit_Curve_check (s : Parameter_Scan) (certainty_level : ℚ) (i : ℕ) : Bool :=
  decide ((s.p_value_grid.getLastD []).getD i 1 < 1 - certainty_level)

/-- Limit_Curve (lines 153-169).  libphysica::Interpolation is abstracted as a
function Interpolation : nodes → values → (ℚ → ℚ) and libphysica::Find_Root as
Find_Root : f → left bracket → right bracket → tolerance → root. -/
def Limit_Curve (Find_Root : (ℚ → ℚ) → ℚ → ℚ → ℚ → ℚ)
    (Interpolation : List ℚ → List ℚ → ℚ → ℚ)
    (s : Parameter_Scan) (certainty_level : ℚ) : List (List ℚ) :=
  (List.range s.DM_masses.length).foldl
    (fun limit i =>
      if Limit_Curve_check s certainty_level i then
        let interpolation_list := (List.range s.couplings.length).map
          (fun j => (s.p_value_grid.getD j []).getD i 1 - (1 - certainty_level))
        let interpolation := Interpolation s.couplings interpolation_list
        let coupling_limit := Find_Root interpolation (s.couplings.getD 0 0)
          (s.couplings.getLastD 0) (1 / 100 * s.couplings.getD 0 0)
        limit ++ [[s.DM_masses.getD i 0, coupling_limit]]
      else limit)
    []

/-- Limit curve as the specification words it: mass column i contributes an
entry iff the single grid value at the largest coupling index,
p_value_grid[couplings.size()-1][i], is strictly below 1 - CL, and the entry
is (DM_masses[i], root of the interpolation of the column's p-values minus
(1 - CL) over the full coupling axis, sought on the bracket
[couplings[0], couplings.back()] with tolerance 0.01*couplings[0]). -/
def Limit_Curve_spec (Find_Root : (ℚ → ℚ) → ℚ → ℚ → ℚ → ℚ)
    (Interpolation : List ℚ → List ℚ → ℚ → ℚ)
    (s : Parameter_Scan) (certainty_level : ℚ) : List (List ℚ) :=
  (List.range s.DM_masses.length).filterMap
    (fun i =>
      if (s.p_value_grid.getD (s.couplings.length - 1) []).getD i 1 < 1 - certainty_level then
        some [s.DM_masses.getD i 0,
          Find_Root
            (Interpolation s.couplings ((List.range s.couplings.length).map
              (fun j => (s.p_value_grid.getD j []).getD i 1 - (1 - certainty_level))))
            (s.couplings.getD 0 0) (s.couplings.getLastD 0) (1 / 100 * s.couplings.getD 0 0)]
      else none)

/-- Export_P_Values (lines 196-207), as the table it writes to p_values.txt:
one row [mass, coupling, p] per (mass, coupling) pair, mass-major. -/
def Export_P_Values (s : Parameter_Scan) : List (List ℚ) :=
  (List.range s.DM_masses.length).flatMap
    (fun i => (List.range s.couplings.length).map
      (fun j => [s.DM_masses.getD i 0, s.couplings.getD j 0, (s.p_value_grid.getD j []).getD i 1]))

/-- Import_P_Values (lines 171-194), applied to the table read back from
p_values.txt.  A std::set iterates its distinct values in ascending order, so
the set of masses is modelled by sorting and removing duplicates;
number_of_masses is taken from the pre-existing DM_masses before that member
is reassigned, exactly as in the source. -/
def Import_P_Values (s : Parameter_Scan) (table : List (List ℚ)) : Parameter_Scan :=
  let all_masses := table.map (fun r => r.getD 0 0)
  let mass_set := (all_masses.insertionSort (· ≤ ·)).dedup
  let number_of_masses := s.DM_masses.length
  let number_of_couplings := table.length / number_of_masses
  { s with
    DM_masses := mass_set
    couplings := (List.range number_of_couplings).map (fun i => (table.getD i []).getD 1 0)
    p_value_grid := (List.range number_of_couplings).map
      (fun j => (List.range number_of_masses).map
        (fun i => (table.getD (i * number_of_couplings + j) []).getD 2 0)) }

/-- Members of class Solar_Reflection_Limit used by Upper_Limit. -/
structure Solar_Reflection_Limit where
  sample_size : ℕ
  masses : List ℚ
  coupling_min : ℚ
  coupling_max : ℚ
  certainty_level : ℚ
deriving DecidableEq

/-- Upper_Limit (lines 254-278).  exp and log (std math functions on doubles)
and libphysica::Find_Root are abstracted as function parameters; the external
pipeline evaluated inside the lambda is the same oracle pv as in Perform_Scan.
Returns the limit together with the particle as left behind by the call. -/
def Upper_Limit (Find_Root : (ℚ → ℚ) → ℚ → ℚ → ℚ → ℚ) (exp log : ℚ → ℚ)
    (pv : DM_Particle → ℚ) (L : Solar_Reflection_Limit) (mass : ℚ) (DM : DM_Particle) :
    ℚ × DM_Particle :=
  let mDM_original := DM.mass
  let coupling_original := DM.coupling
  let DM1 : DM_Particle := { DM with mass := mass }
  let func : ℚ → ℚ := fun log_coupling =>
    let DM2 : DM_Particle := { DM1 with coupling := exp log_coupling }
    let p := pv DM2
    p - (1 - L.certainty_level)
  let log_coupling_min := log L.coupling_min
  let log_coupling_max := log L.coupling_max
  let log_limit := Find_Root func log_coupling_min log_coupling_max (1 / 100)
  (exp log_limit, { DM1 with mass := mDM_original, coupling := coupling_original })

/-- The direct root-finder's return value as the specification words it:
exp of the root of log_coupling ↦ p-value(coupling = exp(log_coupling)) at the
fixed mass, minus (1 - certainty_level), bracketed by [log(coupling_min),
log(coupling_max)] with tolerance 1e-2. -/
def Upper_Limit_spec (Find_Root : (ℚ → ℚ) → ℚ → ℚ → ℚ → ℚ) (exp log : ℚ → ℚ)
    (pv : DM_Particle → ℚ) (L : Solar_Reflection_Limit) (mass : ℚ) : ℚ :=
  exp (Find_Root
    (fun log_coupling => pv ⟨mass, exp log_coupling⟩ - (1 - L.certainty_level))
    (log L.coupling_min) (log L.coupling_max) (1 / 100))

/-- Folding an accumulate-or-skip step over a list is a filterMap. -/
theorem foldl_append_eq_filterMap {α β : Type} (g : List α → β → List α) (f : β → Option α)
    (hg : ∀ acc b, g acc b = acc ++ (f b).toList) (l : List β) (acc : List α) :
    l.foldl g acc = acc ++ l.filterMap f := by
  induction l generalizing acc with
  | nil => simp
  | cons b t ih =>
    rw [List.foldl_cons, hg, ih, List.filterMap_cons]
    cases f b <;> simp

/-- getLastD is reading at index length - 1. -/
theorem getLastD_eq_getD_length_sub_one {α : Type} (l : List α) (d : α) :
    l.getLastD d = l.getD (l.length - 1) d := by
  induction l with
  | nil => rfl
  | cons a t ih =>
    cases t with
    | nil => rfl
    | cons b u => simpa using ih

/-- C8: the constructed session has both axes sorted ascending with duplicates
retained (each axis is a permutation of its input), and the grid has exactly
couplings.size() rows of DM_masses.size() entries, every entry 1.0. -/
theorem C8_construction (masses coupl : List ℚ) (samplesize : ℕ) :
    (Parameter_Scan.init masses coupl samplesize).DM_masses.Sorted (· ≤ ·) ∧
    List.Perm (Parameter_Scan.init masses coupl samplesize).DM_masses masses ∧
    (Parameter_Scan.init masses coupl samplesize).couplings.Sorted (· ≤ ·) ∧
    List.Perm (Parameter_Scan.init masses coupl samplesize).couplings coupl ∧
    (Parameter_Scan.init masses coupl samplesize).p_value_grid.length =
      (Parameter_Scan.init masses coupl samplesize).couplings.length ∧
    (∀ row ∈ (Parameter_Scan.init masses coupl samplesize).p_value_grid,
      row.length = (Parameter_Scan.init masses coupl samplesize).DM_masses.length) ∧
    (∀ row ∈ (Parameter_Scan.init masses coupl samplesize).p_value_grid,
      ∀ x ∈ row, x = 1) := by
  refine ⟨List.sorted_insertionSort _ _, List.perm_insertionSort _ _,
    List.sorted_insertionSort _ _, List.perm_insertionSort _ _, by simp [Parameter_Scan.init],
    ?_, ?_⟩
  · intro row hrow
    simp only [Parameter_Scan.init] at hrow
    rw [List.eq_of_mem_replicate hrow]
    simp [Parameter_Scan.init]
  · intro row hrow x hx
    simp only [Parameter_Scan.init] at hrow
    rw [List.eq_of_mem_replicate hrow] at hx
    exact List.eq_of_mem_replicate hx

/-- C6: after Perform_Scan and after Upper_Limit return, the particle's mass
and interaction coupling equal their pre-call values exactly. -/
theorem C6_parameter_restoration (pv : DM_Particle → ℚ) (s : Parameter_Scan)
    (DM : DM_Particle) (Find_Root : (ℚ → ℚ) → ℚ → ℚ → ℚ → ℚ) (exp log : ℚ → ℚ)
    (L : Solar_Reflection_Limit) (mass : ℚ) :
    ((Perform_Scan pv s DM).2.mass = DM.mass ∧
      (Perform_Scan pv s DM).2.coupling = DM.coupling) ∧
    ((Upper_Limit Find_Root exp log pv L mass DM).2.mass = DM.mass ∧
      (Upper_Limit Find_Root exp log pv L mass DM).2.coupling = DM.coupling) :=
  ⟨⟨rfl, rfl⟩, ⟨rfl, rfl⟩⟩

/-- C7: for a fixed mass, Upper_Limit returns exp(r) where r is the root
returned by the scalar root-finder applied to
log_coupling ↦ p-value(mass, exp(log_coupling)) − (1 − certainty_level),
bracketed by [log(coupling_min), log(coupling_max)] with tolerance 1e-2; the
p-value oracle is evaluated with the model mass set to the given mass.  (No
grid is involved: the embedding of Upper_Limit neither receives nor returns a
Parameter_Scan session.) -/
theorem C7_upper_limit (Find_Root : (ℚ → ℚ) → ℚ → ℚ → ℚ → ℚ) (exp log : ℚ → ℚ)
    (pv : DM_Particle → ℚ) (L : Solar_Reflection_Limit) (mass : ℚ) (DM : DM_Particle) :
    (Upper_Limit Find_Root exp log pv L mass DM).1 =
      Upper_Limit_spec Find_Root exp log pv L mass := rfl

/-- C4: with the session invariant that the grid has one row per coupling,
Limit_Curve agrees with the specification's description: a mass column i
contributes an entry iff p_value_grid[couplings.size()-1][i] < 1 - CL, the
entry being (DM_masses[i], root of the column interpolation on
[couplings[0], couplings.back()] with tolerance 0.01*couplings[0]);
columns failing the single extreme-row check are omitted. -/
theorem C4_limit_curve (Find_Root : (ℚ → ℚ) → ℚ → ℚ → ℚ → ℚ)
    (Interpolation : List ℚ → List ℚ → ℚ → ℚ) (s : Parameter_Scan) (certainty_level : ℚ)
    (hlen : s.p_value_grid.length = s.couplings.length) :
    Limit_Curve Find_Root Interpolation s certainty_level =
      Limit_Curve_spec Find_Root Interpolation s certainty_level := by
  unfold Limit_Curve Limit_Curve_spec
  rw [foldl_append_eq_filterMap _
    (fun i =>
      if (s.p_value_grid.getD (s.couplings.length - 1) []).getD i 1 < 1 - certainty_level then
        some [s.DM_masses.getD i 0,
          Find_Root
            (Interpolation s.couplings ((List.range s.couplings.length).map
              (fun j => (s.p_value_grid.getD j []).getD i 1 - (1 - certainty_level))))
            (s.couplings.getD 0 0) (s.couplings.getLastD 0) (1 / 100 * s.couplings.getD 0 0)]
      else none)]
  · simp
  · intro acc i
    have hcheck : Limit_Curve_check s certainty_level i =
        decide ((s.p_value_grid.getD (s.couplings.length - 1) []).getD i 1 <
          1 - certainty_level) := by
      unfold Limit_Curve_check
      rw [getLastD_eq_getD_length_sub_one, hlen]
    rw [hcheck]
    by_cases h : (s.p_value_grid.getD (s.couplings.length - 1) []).getD i 1 <
        1 - certainty_level
    · rw [if_pos (decide_eq_true h), if_pos h, Option.toList_some]
    · rw [if_neg (fun hc => h (of_decide_eq_true hc)), if_neg h, Option.toList_none,
        List.append_nil]

/-- C4 witness: the theorem applied at a concrete session, root-finder and
interpolation oracle. -/
theorem C4_limit_curve_witness :
    ((Parameter_Scan.init [1, 2] [3, 4] 7).p_value_grid.length =
      (Parameter_Scan.init [1, 2] [3, 4] 7).couplings.length) ∧
    Limit_Curve (fun f a b t => f a + b + t) (fun xs ys x => x + xs.headD 0 + ys.headD 0)
        (Parameter_Scan.init [1, 2] [3, 4] 7) (99 / 100) =
      Limit_Curve_spec (fun f a b t => f a + b + t) (fun xs ys x => x + xs.headD 0 + ys.headD 0)
        (Parameter_Scan.init [1, 2] [3, 4] 7) (99 / 100) :=
  ⟨by decide, C4_limit_curve _ _ _ _ (by decide)⟩

/-- Reading a list back entrywise by index reproduces the list. -/
theorem map_getD_range {α : Type} (l : List α) (d : α) :
    (List.range l.length).map (fun i => l.getD i d) = l := by
  apply List.ext_getElem (by simp)
  intro i h1 h2
  simp only [List.getElem_map, List.getElem_range]
  rw [List.getD_eq_getElem _ _ (by simpa using h2)]

/-- Reading the range list by index gives the index. -/
theorem range_getD (n i : ℕ) (h : i < n) (d : ℕ) : (List.range n).getD i d = i := by
  rw [List.getD_eq_getElem _ _ (by simpa using h)]
  simp

/-- Reading a mapped range list by index applies the function to the index. -/
theorem map_range_getD {α : Type} (n : ℕ) (f : ℕ → α) (j : ℕ) (hj : j < n) (d : α) :
    ((List.range n).map f).getD j d = f j := by
  rw [List.getD_eq_getElem _ _ (by simpa using hj)]
  simp

/-- Length of a concatenation of equal-length blocks. -/
theorem length_flatMap_uniform {α β : Type} (l : List β) (f : β → List α) (nc : ℕ)
    (hf : ∀ b ∈ l, (f b).length = nc) : (l.flatMap f).length = l.length * nc := by
  induction l with
  | nil => simp
  | cons b t ih =>
    rw [List.flatMap_cons, List.length_append, hf b (by simp),
      ih (fun b hb => hf b (by simp [hb])), List.length_cons]
    ring

/-- Indexing into a concatenation of equal-length blocks. -/
theorem flatMap_getD_uniform {α β : Type} (f : β → List α) (nc : ℕ) (l : List β)
    (hf : ∀ b ∈ l, (f b).length = nc) (i j : ℕ) (hi : i < l.length) (hj : j < nc)
    (d : α) (b0 : β) :
    (l.flatMap f).getD (i * nc + j) d = (f (l.getD i b0)).getD j d := by
  induction l generalizing i with
  | nil => simp at hi
  | cons b t ih =>
    rw [List.flatMap_cons]
    cases i with
    | zero =>
      rw [Nat.zero_mul, Nat.zero_add,
        List.getD_append _ _ _ _ (by rw [hf b (by simp)]; exact hj)]
      rfl
    | succ i =>
      have hb : (f b).length = nc := hf b (by simp)
      have harith : (i + 1) * nc + j = (f b).length + (i * nc + j) := by rw [hb]; ring
      rw [harith, List.getD_append_right _ _ _ _ (Nat.le_add_right _ _),
        Nat.add_sub_cancel_left]
      exact ih (fun b hb => hf b (by simp [hb])) i (by simpa using hi)

/-- Entry (i*nc + j) of the exported table is the row for mass i, coupling j. -/
theorem Export_P_Values_getD (s : Parameter_Scan) (i j : ℕ)
    (hi : i < s.DM_masses.length) (hj : j < s.couplings.length) :
    (Export_P_Values s).getD (i * s.couplings.length + j) [] =
      [s.DM_masses.getD i 0, s.couplings.getD j 0, (s.p_value_grid.getD j []).getD i 1] := by
  unfold Export_P_Values
  rw [flatMap_getD_uniform _ s.couplings.length _ (fun b _ => by simp) i j
    (by simpa using hi) hj [] 0]
  rw [range_getD _ _ hi, map_range_getD _ _ _ hj]

/-- The exported table has one row per (mass, coupling) pair. -/
theorem Export_P_Values_length (s : Parameter_Scan) :
    (Export_P_Values s).length = s.DM_masses.length * s.couplings.length := by
  unfold Export_P_Values
  rw [length_flatMap_uniform _ _ s.couplings.length (fun b _ => by simp)]
  simp

/-- C5 counterexample: on the session constructed from the duplicated mass
axis [1, 1], export followed by import does not reproduce the session — the
imported mass axis is deduplicated by the std::set to the single value 1, so
the axes (and the grid dimensions) change. -/
theorem C5_counterexample :
    Import_P_Values (Parameter_Scan.init [1, 1] [1] 0)
        (Export_P_Values (Parameter_Scan.init [1, 1] [1] 0)) ≠
      Parameter_Scan.init [1, 1] [1] 0 := by decide

/-- C5 (amended): exporting then importing reproduces the session exactly,
provided the session satisfies the invariants every scanned session has and
that the counterexample shows to be necessary: the mass axis is sorted
ascending, duplicate-free and nonempty, the coupling axis is nonempty, and
the grid has one row per coupling, each row with one entry per mass. -/
theorem C5_export_import_round_trip (s : Parameter_Scan)
    (hms : s.DM_masses.Sorted (· ≤ ·)) (hmn : s.DM_masses.Nodup)
    (hm0 : s.DM_masses ≠ []) (hc0 : s.couplings ≠ [])
    (hlen : s.p_value_grid.length = s.couplings.length)
    (hrows : ∀ row ∈ s.p_value_grid, row.length = s.DM_masses.length) :
    Import_P_Values s (Export_P_Values s) = s := by
  have hnm : 0 < s.DM_masses.length := List.length_pos.mpr hm0
  have hnc : 0 < s.couplings.length := List.length_pos.mpr hc0
  have hncc : (Export_P_Values s).length / s.DM_masses.length = s.couplings.length := by
    rw [Export_P_Values_length, Nat.mul_div_cancel_left _ hnm]
  have hmasses_list : (Export_P_Values s).map (fun r => r.getD 0 0) =
      (List.range s.DM_masses.length).flatMap
        (fun i => (List.range s.couplings.length).map (fun _ => s.DM_masses.getD i 0)) := by
    unfold Export_P_Values
    rw [List.map_flatMap]
    simp only [List.map_map]
    rfl
  have hdm : ((((Export_P_Values s).map (fun r => r.getD 0 0)).insertionSort (· ≤ ·)).dedup) =
      s.DM_masses := by
    refine List.eq_of_perm_of_sorted ?_ ?_ hms
    · refine (List.perm_ext_iff_of_nodup (List.nodup_dedup _) hmn).mpr (fun a => ?_)
      rw [List.mem_dedup, (List.perm_insertionSort _ _).mem_iff, hmasses_list]
      simp only [List.mem_flatMap, List.mem_map, List.mem_range]
      constructor
      · rintro ⟨i, hi, _, _, rfl⟩
        rw [List.getD_eq_getElem _ _ hi]
        exact List.getElem_mem _
      · intro ha
        obtain ⟨i, hi, hgi⟩ := List.mem_iff_getElem.mp ha
        exact ⟨i, hi, 0, hnc, by rw [List.getD_eq_getElem _ _ hi]; exact hgi⟩
    · exact List.Pairwise.sublist (List.dedup_sublist _) (List.sorted_insertionSort _ _)
  have hcp : (List.range s.couplings.length).map
      (fun i => ((Export_P_Values s).getD i []).getD 1 0) = s.couplings := by
    have hmem : ∀ i ∈ List.range s.couplings.length,
        ((Export_P_Values s).getD i []).getD 1 0 = s.couplings.getD i 0 := by
      intro i hi
      have hi' : i < s.couplings.length := List.mem_range.mp hi
      have hb := Export_P_Values_getD s 0 i hnm hi'
      rw [Nat.zero_mul, Nat.zero_add] at hb
      rw [hb]
      rfl
    rw [List.map_congr_left hmem]
    exact map_getD_range s.couplings 0
  have hgrid : (List.range s.couplings.length).map
      (fun j => (List.range s.DM_masses.length).map
        (fun i => ((Export_P_Values s).getD (i * s.couplings.length + j) []).getD 2 0)) =
      s.p_value_grid := by
    have houter : ∀ j ∈ List.range s.couplings.length,
        (List.range s.DM_masses.length).map
          (fun i => ((Export_P_Values s).getD (i * s.couplings.length + j) []).getD 2 0) =
        s.p_value_grid.getD j [] := by
      intro j hj
      have hj' : j < s.couplings.length := List.mem_range.mp hj
      have hrowlen : (s.p_value_grid.getD j []).length = s.DM_masses.length := by
        have hjg : j < s.p_value_grid.length := by rw [hlen]; exact hj'
        rw [List.getD_eq_getElem _ _ hjg]
        exact hrows _ (List.getElem_mem _)
      have hinner : ∀ i ∈ List.range s.DM_masses.length,
          ((Export_P_Values s).getD (i * s.couplings.length + j) []).getD 2 0 =
          (s.p_value_grid.getD j []).getD i 1 := by
        intro i hi
        rw [Export_P_Values_getD s i j (List.mem_range.mp hi) hj']
        rfl
      rw [List.map_congr_left hinner, ← hrowlen]
      exact map_getD_range _ 1
    rw [List.map_congr_left houter, ← hlen]
    exact map_getD_range s.p_value_grid []
  obtain ⟨ms, cs, k, g⟩ := s
  simp only at hncc hdm hcp hgrid
  simp only [Import_P_Values, Parameter_Scan.mk.injEq, hncc]
  exact ⟨hdm, hcp, trivial, hgrid⟩

/-- C5 witness: the amended theorem applied to a concrete well-formed session. -/
theorem C5_export_import_witness :
    ((Parameter_Scan.init [1, 2] [3, 4] 7).DM_masses.Sorted (· ≤ ·) ∧
      (Parameter_Scan.init [1, 2] [3, 4] 7).DM_masses.Nodup ∧
      (Parameter_Scan.init [1, 2] [3, 4] 7).DM_masses ≠ [] ∧
      (Parameter_Scan.init [1, 2] [3, 4] 7).couplings ≠ [] ∧
      (Parameter_Scan.init [1, 2] [3, 4] 7).p_value_grid.length =
        (Parameter_Scan.init [1, 2] [3, 4] 7).couplings.length ∧
      (∀ row ∈ (Parameter_Scan.init [1, 2] [3, 4] 7).p_value_grid,
        row.length = (Parameter_Scan.init [1, 2] [3, 4] 7).DM_masses.length)) ∧
    Import_P_Values (Parameter_Scan.init [1, 2] [3, 4] 7)
        (Export_P_Values (Parameter_Scan.init [1, 2] [3, 4] 7)) =
      Parameter_Scan.init [1, 2] [3, 4] 7 :=
  ⟨⟨by decide, by decide, by decide, by decide, by decide, by decide⟩,
    C5_export_import_round_trip _ (by decide) (by decide) (by decide) (by decide)
      (by decide) (by decide)⟩

/-- Writing one position leaves the others unchanged. -/
theorem getD_set_ne {α : Type} (l : List α) (k idx : ℕ) (v d : α) (h : k ≠ idx) :
    (l.set k v).getD idx d = l.getD idx d := by
  rw [List.getD_eq_getElem?_getD, List.getElem?_set_ne h, List.getD_eq_getElem?_getD]

/-- Reading back an in-bounds write gives the written value. -/
theorem getD_set_self {α : Type} (l : List α) (k : ℕ) (v d : α) (h : k < l.length) :
    (l.set k v).getD k d = v := by
  rw [List.getD_eq_getElem?_getD, List.getElem?_set_self]
  · rfl
  · exact h

/-- P-value the pipeline returns at inner loop counter j of a row scanned at
coupling c: the particle then carries mass DM_masses[size - 1 - j] and
coupling c. -/
def rowPval (pv : DM_Particle → ℚ) (masses : List ℚ) (c : ℚ) (j : ℕ) : ℚ :=
  pv ⟨masses.getD (masses.length - 1 - j) 0, c⟩

/-- Whether some cell strictly before loop counter j of the current row had a
p-value below 0.1: the value of row_exclusion when cell j is reached. -/
def rowExclAt (p : ℕ → ℚ) (j : ℕ) : Bool :=
  (List.range j).any (fun q => decide (p q < pThreshold))

/-- Value of last_excluded_mass_index when cell j of a row entered with the
inherited value last0 is reached. -/
def lastAt (p : ℕ → ℚ) (last0 : ℕ) : ℕ → ℕ
  | 0 => last0
  | j + 1 => if p j < pThreshold then j else lastAt p last0 j

/-- The cell at loop counter j stops the row: its p-value is not below 0.1,
and either the row has already excluded or j exceeds
last_excluded_mass_index + 1. -/
def breakAt (p : ℕ → ℚ) (last0 j : ℕ) : Bool :=
  !decide (p j < pThreshold) && (rowExclAt p j || decide (lastAt p last0 j + 1 < j))

/-- Number of cells a row evaluates entering at loop counter j with fuel
iterations left: up to and including the first breaking cell, else all fuel. -/
def lenFrom (p : ℕ → ℚ) (last0 j fuel : ℕ) : ℕ :=
  match (List.range' j fuel).find? (breakAt p last0) with
  | some jb => jb + 1 - j
  | none => fuel

/-- Canonical trace entry for the cell at loop counter j of row i. -/
def cellSpec (p : ℕ → ℚ) (last0 i j : ℕ) : CellEval :=
  ⟨i, j, lastAt p last0 j, rowExclAt p j, p j⟩

theorem rowExclAt_succ (p : ℕ → ℚ) (j : ℕ) :
    rowExclAt p (j + 1) = (rowExclAt p j || decide (p j < pThreshold)) := by
  unfold rowExclAt
  rw [List.range_succ, List.any_append]
  simp

theorem rowExclAt_true_iff (p : ℕ → ℚ) (j : ℕ) :
    rowExclAt p j = true ↔ ∃ q < j, p q < pThreshold := by
  unfold rowExclAt
  simp [List.mem_range]

theorem lenFrom_le (p : ℕ → ℚ) (last0 j fuel : ℕ) : lenFrom p last0 j fuel ≤ fuel := by
  unfold lenFrom
  split
  · rename_i jb hf
    have := List.mem_range'_1.mp (List.mem_of_find?_eq_some hf)
    omega
  · exact le_refl _

theorem lenFrom_pos (p : ℕ → ℚ) (last0 j fuel : ℕ) (h : 0 < fuel) :
    0 < lenFrom p last0 j fuel := by
  unfold lenFrom
  split
  · rename_i jb hf
    have := List.mem_range'_1.mp (List.mem_of_find?_eq_some hf)
    omega
  · exact h

theorem lenFrom_succ_break (p : ℕ → ℚ) (last0 j fuel : ℕ) (h : breakAt p last0 j = true) :
    lenFrom p last0 j (fuel + 1) = 1 := by
  unfold lenFrom
  rw [List.range'_succ, List.find?_cons_of_pos _ h]
  show j + 1 - j = 1
  omega

theorem lenFrom_succ_not_break (p : ℕ → ℚ) (last0 j fuel : ℕ)
    (h : breakAt p last0 j = false) :
    lenFrom p last0 j (fuel + 1) = lenFrom p last0 (j + 1) fuel + 1 := by
  unfold lenFrom
  rw [List.range'_succ, List.find?_cons_of_neg _ (by simp [h])]
  cases hf : (List.range' (j + 1) fuel).find? (breakAt p last0) with
  | none => rfl
  | some jb =>
    have := List.mem_range'_1.mp (List.mem_of_find?_eq_some hf)
    show jb + 1 - j = jb + 1 - (j + 1) + 1
    omega

/-- Main characterization of the inner mass loop: entered at loop counter j
with the state variables holding their canonical values, it evaluates exactly
the cells j, j+1, ..., j + lenFrom - 1, recording the canonical trace entry
at each; on exit row_exclusion and last_excluded_mass_index hold their
canonical values at the stopping point, the row keeps its length, cells not
written keep their values, and every evaluated cell holds its clamped
p-value. -/
theorem scanRowGo_spec (pv : DM_Particle → ℚ) (masses : List ℚ) (c : ℚ) (last0 : ℕ)
    (p : ℕ → ℚ) (hp : p = rowPval pv masses c) (fuel : ℕ) :
    ∀ (j : ℕ) (row : List ℚ) (excl : Bool) (last : ℕ) (DM : DM_Particle) (i : ℕ),
      DM.coupling = c → excl = rowExclAt p j → last = lastAt p last0 j →
      j + fuel ≤ masses.length →
      (scanRowGo pv masses fuel j row excl last DM i).trace =
        (List.range' j (lenFrom p last0 j fuel)).map (cellSpec p last0 i) ∧
      (scanRowGo pv masses fuel j row excl last DM i).row_exclusion =
        rowExclAt p (j + lenFrom p last0 j fuel) ∧
      (scanRowGo pv masses fuel j row excl last DM i).last_excluded_mass_index =
        lastAt p last0 (j + lenFrom p last0 j fuel) ∧
      (scanRowGo pv masses fuel j row excl last DM i).row.length = row.length ∧
      (∀ idx d, (∀ q ∈ List.range' j (lenFrom p last0 j fuel),
          masses.length - 1 - q ≠ idx) →
        (scanRowGo pv masses fuel j row excl last DM i).row.getD idx d = row.getD idx d) ∧
      (row.length = masses.length →
        ∀ q ∈ List.range' j (lenFrom p last0 j fuel),
          (scanRowGo pv masses fuel j row excl last DM i).row.getD
            (masses.length - 1 - q) 0 = clampP (p q)) := by
  induction fuel with
  | zero =>
    intro j row excl last DM i hc hexcl hlast hfuel
    refine ⟨rfl, ?_, ?_, rfl, fun idx d _ => rfl, fun _ q hq => absurd hq (by simp [lenFrom])⟩
    · rw [hexcl]
      rfl
    · rw [hlast]
      rfl
  | succ fuel ih =>
    intro j row excl last DM i hc hexcl hlast hfuel
    subst hexcl hlast hp
    have hpj : pv { DM with mass := masses.getD (masses.length - 1 - j) 0 } =
        rowPval pv masses c j := by
      unfold rowPval
      rw [hc]
    by_cases h1 : rowPval pv masses c j < pThreshold
    · -- the cell excludes: row_exclusion := true, last := j, continue
      have hbreak : breakAt (rowPval pv masses c) last0 j = false := by
        unfold breakAt
        rw [decide_eq_true h1]
        rfl
      have hL := lenFrom_succ_not_break (rowPval pv masses c) last0 j fuel hbreak
      have hexcl1 : (true : Bool) = rowExclAt (rowPval pv masses c) (j + 1) := by
        rw [rowExclAt_succ, decide_eq_true h1, Bool.or_true]
      have hlast1 : j = lastAt (rowPval pv masses c) last0 (j + 1) := by
        show j = if rowPval pv masses c j < pThreshold then j
          else lastAt (rowPval pv masses c) last0 j
        rw [if_pos h1]
      obtain ⟨ih1, ih2, ih3, ih4, ih5, ih6⟩ :=
        ih (j + 1) (row.set (masses.length - 1 - j) (clampP (rowPval pv masses c j)))
          true j { DM with mass := masses.getD (masses.length - 1 - j) 0 } i
          hc hexcl1 hlast1 (by omega)
      have hsum : j + (lenFrom (rowPval pv masses c) last0 (j + 1) fuel + 1) =
          (j + 1) + lenFrom (rowPval pv masses c) last0 (j + 1) fuel := by omega
      simp only [scanRowGo, hpj, if_pos h1]
      rw [hL, hsum]
      refine ⟨?_, ih2, ih3, ?_, ?_, ?_⟩
      · rw [List.range'_succ, List.map_cons, ← ih1]
        rfl
      · rw [ih4, List.length_set]
      · intro idx d hidx
        have hne : masses.length - 1 - j ≠ idx :=
          hidx j (by rw [List.range'_succ]; exact List.mem_cons_self _ _)
        rw [ih5 idx d (fun q hq => hidx q (by
          rw [List.range'_succ]
          exact List.mem_cons_of_mem _ hq))]
        exact getD_set_ne _ _ _ _ _ hne
      · intro hrowlen q hq
        rw [List.range'_succ] at hq
        rcases List.mem_cons.mp hq with rfl | hq2
        · have hframe : ∀ q2 ∈ List.range' (q + 1)
              (lenFrom (rowPval pv masses c) last0 (q + 1) fuel),
              masses.length - 1 - q2 ≠ masses.length - 1 - q := by
            intro q2 hq2
            have hb := List.mem_range'_1.mp hq2
            have hle := lenFrom_le (rowPval pv masses c) last0 (q + 1) fuel
            omega
          rw [ih5 _ 0 hframe]
          exact getD_set_self _ _ _ _ (by omega)
        · exact ih6 (by rw [List.length_set]; exact hrowlen) q hq2
    · -- the cell does not exclude
      by_cases h2 : rowExclAt (rowPval pv masses c) j = true ∨
          lastAt (rowPval pv masses c) last0 j + 1 < j
      · -- break: the row stops after this cell
        have hbreak : breakAt (rowPval pv masses c) last0 j = true := by
          unfold breakAt
          rw [decide_eq_false h1]
          rcases h2 with h2 | h2
          · rw [h2]
            rfl
          · rw [decide_eq_true h2, Bool.or_true]
            rfl
        have hL := lenFrom_succ_break (rowPval pv masses c) last0 j fuel hbreak
        simp only [scanRowGo, hpj, if_neg h1, if_pos h2]
        rw [hL]
        refine ⟨?_, ?_, ?_, List.length_set _ _ _, ?_, ?_⟩
        · rfl
        · rw [rowExclAt_succ, decide_eq_false h1, Bool.or_false]
        · show lastAt (rowPval pv masses c) last0 j =
            if rowPval pv masses c j < pThreshold then j
            else lastAt (rowPval pv masses c) last0 j
          rw [if_neg h1]
        · intro idx d hidx
          exact getD_set_ne _ _ _ _ _
            (hidx j (List.mem_range'_1.mpr ⟨le_refl j, by omega⟩))
        · intro hrowlen q hq
          have hqj : q = j := by
            have := List.mem_range'_1.mp hq
            omega
          subst hqj
          exact getD_set_self _ _ _ _ (by omega)
      · -- no break: continue with unchanged state
        have h21 : rowExclAt (rowPval pv masses c) j = false := by
          cases hbv : rowExclAt (rowPval pv masses c) j with
          | false => rfl
          | true => exact absurd (Or.inl hbv) h2
        have h22 : ¬ lastAt (rowPval pv masses c) last0 j + 1 < j :=
          fun hlt => h2 (Or.inr hlt)
        have hbreak : breakAt (rowPval pv masses c) last0 j = false := by
          unfold breakAt
          rw [decide_eq_false h1, h21, decide_eq_false h22]
          rfl
        have hL := lenFrom_succ_not_break (rowPval pv masses c) last0 j fuel hbreak
        have hexcl1 : rowExclAt (rowPval pv masses c) j =
            rowExclAt (rowPval pv masses c) (j + 1) := by
          rw [rowExclAt_succ, decide_eq_false h1, Bool.or_false]
        have hlast1 : lastAt (rowPval pv masses c) last0 j =
            lastAt (rowPval pv masses c) last0 (j + 1) := by
          show lastAt (rowPval pv masses c) last0 j =
            if rowPval pv masses c j < pThreshold then j
            else lastAt (rowPval pv masses c) last0 j
          rw [if_neg h1]
        obtain ⟨ih1, ih2, ih3, ih4, ih5, ih6⟩ :=
          ih (j + 1) (row.set (masses.length - 1 - j) (clampP (rowPval pv masses c j)))
            (rowExclAt (rowPval pv masses c) j) (lastAt (rowPval pv masses c) last0 j)
            { DM with mass := masses.getD (masses.length - 1 - j) 0 } i
            hc hexcl1 hlast1 (by omega)
        have hsum : j + (lenFrom (rowPval pv masses c) last0 (j + 1) fuel + 1) =
            (j + 1) + lenFrom (rowPval pv masses c) last0 (j + 1) fuel := by omega
        simp only [scanRowGo, hpj, if_neg h1, if_neg h2]
        rw [hL, hsum]
        refine ⟨?_, ih2, ih3, ?_, ?_, ?_⟩
        · rw [List.range'_succ, List.map_cons, ← ih1]
          rfl
        · rw [ih4, List.length_set]
        · intro idx d hidx
          have hne : masses.length - 1 - j ≠ idx :=
            hidx j (by rw [List.range'_succ]; exact List.mem_cons_self _ _)
          rw [ih5 idx d (fun q hq => hidx q (by
            rw [List.range'_succ]
            exact List.mem_cons_of_mem _ hq))]
          exact getD_set_ne _ _ _ _ _ hne
        · intro hrowlen q hq
          rw [List.range'_succ] at hq
          rcases List.mem_cons.mp hq with rfl | hq2
          · have hframe : ∀ q2 ∈ List.range' (q + 1)
                (lenFrom (rowPval pv masses c) last0 (q + 1) fuel),
                masses.length - 1 - q2 ≠ masses.length - 1 - q := by
              intro q2 hq2
              have hb := List.mem_range'_1.mp hq2
              have hle := lenFrom_le (rowPval pv masses c) last0 (q + 1) fuel
              omega
            rw [ih5 _ 0 hframe]
            exact getD_set_self _ _ _ _ (by omega)
          · exact ih6 (by rw [List.length_set]; exact hrowlen) q hq2

/-- Overwriting a position with its own current value changes nothing. -/
theorem set_getD_eq_self {α : Type} (l : List α) (k : ℕ) (d : α) :
    l.set k (l.getD k d) = l := by
  apply List.ext_getElem (by simp)
  intro m h1 h2
  rw [List.getElem_set]
  split
  · rename_i hkm
    subst hkm
    exact List.getD_eq_getElem l d h2
  · rfl

/-- find? on a block of consecutive naturals: the hit satisfies the predicate,
lies in the block, and everything before it in the block fails it. -/
theorem find?_range'_some (f : ℕ → Bool) (k : ℕ) :
    ∀ s jb, (List.range' s k).find? f = some jb →
      f jb = true ∧ s ≤ jb ∧ jb < s + k ∧ ∀ q, s ≤ q → q < jb → f q = false := by
  induction k with
  | zero =>
    intro s jb h
    simp at h
  | succ k ih =>
    intro s jb h
    rw [List.range'_succ] at h
    by_cases hf : f s = true
    · rw [List.find?_cons_of_pos _ hf] at h
      cases h
      exact ⟨hf, le_refl _, by omega, fun q hq1 hq2 => absurd (lt_of_le_of_lt hq1 hq2)
        (lt_irrefl _)⟩
    · rw [List.find?_cons_of_neg _ hf] at h
      obtain ⟨h1, h2, h3, h4⟩ := ih (s + 1) jb h
      refine ⟨h1, by omega, by omega, fun q hq1 hq2 => ?_⟩
      rcases Nat.eq_or_lt_of_le hq1 with rfl | hq1
      · cases hfs : f s
        · rfl
        · exact absurd hfs hf
      · exact h4 q hq1 hq2

/-- Number of cells a row entered with last_excluded_mass_index = last0
evaluates, out of n masses. -/
def rowLen (p : ℕ → ℚ) (last0 n : ℕ) : ℕ := lenFrom p last0 0 n

/-- Canonical trace of a full row of the scan. -/
def rowTraceSpec (p : ℕ → ℚ) (last0 n i : ℕ) : List CellEval :=
  (List.range' 0 (rowLen p last0 n)).map (cellSpec p last0 i)

/-- Characterization of one full row of Perform_Scan, entered at mass loop
counter 0 with row_exclusion = false and an arbitrary inherited
last_excluded_mass_index. -/
theorem scanRow_spec (pv : DM_Particle → ℚ) (masses : List ℚ) (c : ℚ) (last0 : ℕ)
    (row : List ℚ) (DM : DM_Particle) (i : ℕ) (hc : DM.coupling = c) :
    (scanRowGo pv masses masses.length 0 row false last0 DM i).trace =
      rowTraceSpec (rowPval pv masses c) last0 masses.length i ∧
    (scanRowGo pv masses masses.length 0 row false last0 DM i).row_exclusion =
      rowExclAt (rowPval pv masses c) (rowLen (rowPval pv masses c) last0 masses.length) ∧
    (scanRowGo pv masses masses.length 0 row false last0 DM i).last_excluded_mass_index =
      lastAt (rowPval pv masses c) last0 (rowLen (rowPval pv masses c) last0 masses.length) ∧
    (scanRowGo pv masses masses.length 0 row false last0 DM i).row.length = row.length ∧
    (∀ idx d, (∀ q ∈ List.range' 0 (rowLen (rowPval pv masses c) last0 masses.length),
        masses.length - 1 - q ≠ idx) →
      (scanRowGo pv masses masses.length 0 row false last0 DM i).row.getD idx d =
        row.getD idx d) ∧
    (row.length = masses.length →
      ∀ q ∈ List.range' 0 (rowLen (rowPval pv masses c) last0 masses.length),
        (scanRowGo pv masses masses.length 0 row false last0 DM i).row.getD
          (masses.length - 1 - q) 0 = clampP (rowPval pv masses c q)) := by
  have h := scanRowGo_spec pv masses c last0 (rowPval pv masses c) rfl masses.length 0 row
    false last0 DM i hc rfl rfl (by omega)
  simpa [rowTraceSpec, rowLen] using h

/-- The row pass performed at outer loop counter i of the coupling loop:
particle coupling set to couplings[size - 1 - i], mass loop from counter 0 on
grid row couplings.size() - 1 - i, row_exclusion starting false. -/
def scanRowAt (pv : DM_Particle → ℚ) (masses couplings : List ℚ) (grid : List (List ℚ))
    (last : ℕ) (DM : DM_Particle) (i : ℕ) : RowResult :=
  scanRowGo pv masses masses.length 0 (grid.getD (couplings.length - 1 - i) [])
    false last { DM with coupling := couplings.getD (couplings.length - 1 - i) 0 } i

/-- One step of the outer coupling loop, phrased through scanRowAt. -/
theorem scanRowsGo_succ (pv : DM_Particle → ℚ) (masses couplings : List ℚ)
    (fuel i0 : ℕ) (grid : List (List ℚ)) (last : ℕ) (DM : DM_Particle) :
    scanRowsGo pv masses couplings (fuel + 1) i0 grid last DM =
      if (scanRowAt pv masses couplings grid last DM i0).row_exclusion = true then
        { scanRowsGo pv masses couplings fuel (i0 + 1)
            (grid.set (couplings.length - 1 - i0)
              (scanRowAt pv masses couplings grid last DM i0).row)
            (scanRowAt pv masses couplings grid last DM i0).last_excluded_mass_index
            (scanRowAt pv masses couplings grid last DM i0).DM with
          trace := (scanRowAt pv masses couplings grid last DM i0).trace ++
            (scanRowsGo pv masses couplings fuel (i0 + 1)
              (grid.set (couplings.length - 1 - i0)
                (scanRowAt pv masses couplings grid last DM i0).row)
              (scanRowAt pv masses couplings grid last DM i0).last_excluded_mass_index
              (scanRowAt pv masses couplings grid last DM i0).DM).trace }
      else
        ⟨grid.set (couplings.length - 1 - i0)
            (scanRowAt pv masses couplings grid last DM i0).row,
          (scanRowAt pv masses couplings grid last DM i0).last_excluded_mass_index,
          (scanRowAt pv masses couplings grid last DM i0).DM,
          (scanRowAt pv masses couplings grid last DM i0).trace⟩ := rfl

/-- The canonical facts about one row pass, with the row's p-value function
taken at the coupling of that row. -/
theorem scanRowAt_spec (pv : DM_Particle → ℚ) (masses couplings : List ℚ)
    (grid : List (List ℚ)) (last : ℕ) (DM : DM_Particle) (i : ℕ) :
    (scanRowAt pv masses couplings grid last DM i).trace =
      rowTraceSpec (rowPval pv masses (couplings.getD (couplings.length - 1 - i) 0))
        last masses.length i ∧
    (scanRowAt pv masses couplings grid last DM i).row_exclusion =
      rowExclAt (rowPval pv masses (couplings.getD (couplings.length - 1 - i) 0))
        (rowLen (rowPval pv masses (couplings.getD (couplings.length - 1 - i) 0))
          last masses.length) ∧
    (scanRowAt pv masses couplings grid last DM i).last_excluded_mass_index =
      lastAt (rowPval pv masses (couplings.getD (couplings.length - 1 - i) 0)) last
        (rowLen (rowPval pv masses (couplings.getD (couplings.length - 1 - i) 0))
          last masses.length) ∧
    (scanRowAt pv masses couplings grid last DM i).row.length =
      (grid.getD (couplings.length - 1 - i) []).length ∧
    (∀ idx d, (∀ q ∈ List.range' 0
        (rowLen (rowPval pv masses (couplings.getD (couplings.length - 1 - i) 0))
          last masses.length),
        masses.length - 1 - q ≠ idx) →
      (scanRowAt pv masses couplings grid last DM i).row.getD idx d =
        (grid.getD (couplings.length - 1 - i) []).getD idx d) ∧
    ((grid.getD (couplings.length - 1 - i) []).length = masses.length →
      ∀ q ∈ List.range' 0
        (rowLen (rowPval pv masses (couplings.getD (couplings.length - 1 - i) 0))
          last masses.length),
        (scanRowAt pv masses couplings grid last DM i).row.getD
          (masses.length - 1 - q) 0 =
          clampP (rowPval pv masses (couplings.getD (couplings.length - 1 - i) 0) q)) :=
  scanRow_spec pv masses (couplings.getD (couplings.length - 1 - i) 0) last
    (grid.getD (couplings.length - 1 - i) [])
    { DM with coupling := couplings.getD (couplings.length - 1 - i) 0 } i rfl

/-- Membership in the canonical row trace. -/
theorem rowTraceSpec_mem (p : ℕ → ℚ) (last0 n i : ℕ) (e : CellEval) :
    e ∈ rowTraceSpec p last0 n i ↔
      ∃ j, j < rowLen p last0 n ∧ e = cellSpec p last0 i j := by
  unfold rowTraceSpec
  simp only [List.mem_map, List.mem_range'_1]
  constructor
  · rintro ⟨j, hj, rfl⟩
    exact ⟨j, by omega, rfl⟩
  · rintro ⟨j, hj, rfl⟩
    exact ⟨j, by omega, rfl⟩

theorem rowLen_le (p : ℕ → ℚ) (last0 n : ℕ) : rowLen p last0 n ≤ n :=
  lenFrom_le p last0 0 n

theorem rowLen_pos (p : ℕ → ℚ) (last0 n : ℕ) (h : 0 < n) : 0 < rowLen p last0 n :=
  lenFrom_pos p last0 0 n h

theorem rowTraceSpec_filter_self (p : ℕ → ℚ) (last0 n i : ℕ) :
    (rowTraceSpec p last0 n i).filter (fun e => e.i == i) = rowTraceSpec p last0 n i := by
  apply List.filter_eq_self.mpr
  intro e he
  obtain ⟨j, hj, rfl⟩ := (rowTraceSpec_mem p last0 n i e).mp he
  simp [cellSpec]

theorem rowTraceSpec_filter_ne (p : ℕ → ℚ) (last0 n i i2 : ℕ) (h : i ≠ i2) :
    (rowTraceSpec p last0 n i).filter (fun e => e.i == i2) = [] := by
  apply List.filter_eq_nil_iff.mpr
  intro e he
  obtain ⟨j, hj, rfl⟩ := (rowTraceSpec_mem p last0 n i e).mp he
  simp [cellSpec, h]

theorem rowTraceSpec_pairwise (p : ℕ → ℚ) (last0 n i : ℕ) :
    (rowTraceSpec p last0 n i).Pairwise (fun e1 e2 => e1.i ≠ e2.i ∨ e1.j ≠ e2.j) := by
  unfold rowTraceSpec
  refine List.Pairwise.map _ ?_ (List.pairwise_lt_range' ..)
  intro a b hab
  right
  simp only [cellSpec]
  omega

/-- A chain holds along consecutive values of a function mapped over a block
of consecutive naturals. -/
theorem chain'_range'_map {α : Type} (g : ℕ → α) (R : α → α → Prop)
    (h : ∀ j, R (g j) (g (j + 1))) (s k : ℕ) : List.Chain' R ((List.range' s k).map g) := by
  induction k generalizing s with
  | zero => simp
  | succ k ih =>
    rw [List.range'_succ, List.map_cons]
    refine List.Chain'.cons' (ih (s + 1)) ?_
    intro y hy
    cases k with
    | zero => simp at hy
    | succ k =>
      rw [List.range'_succ, List.map_cons, List.head?_cons, Option.mem_some_iff] at hy
      rw [← hy]
      exact h s

theorem rowTraceSpec_chain (p : ℕ → ℚ) (last0 n i : ℕ) :
    (rowTraceSpec p last0 n i).Chain'
      (fun e1 e2 => e2.lastBefore = if e1.p < pThreshold then e1.j else e1.lastBefore) := by
  unfold rowTraceSpec
  apply chain'_range'_map
  intro j
  show lastAt p last0 (j + 1) = if p j < pThreshold then j else lastAt p last0 j
  rfl

theorem rowTraceSpec_head (p : ℕ → ℚ) (last0 n i : ℕ) (h : 0 < rowLen p last0 n) :
    (rowTraceSpec p last0 n i).head? = some (cellSpec p last0 i 0) := by
  unfold rowTraceSpec
  obtain ⟨k, hk⟩ := Nat.exists_eq_succ_of_ne_zero (Nat.pos_iff_ne_zero.mp h)
  rw [hk, List.range'_succ, List.map_cons, List.head?_cons]

theorem rowTraceSpec_getLast (p : ℕ → ℚ) (last0 n i : ℕ) (h : 0 < rowLen p last0 n) :
    (rowTraceSpec p last0 n i).getLast? =
      some (cellSpec p last0 i (rowLen p last0 n - 1)) := by
  unfold rowTraceSpec
  obtain ⟨k, hk⟩ := Nat.exists_eq_succ_of_ne_zero (Nat.pos_iff_ne_zero.mp h)
  rw [hk]
  rw [show List.range' 0 (k + 1) = List.range' 0 k ++ [k] from by
    simpa using List.range'_1_concat 0 k]
  rw [List.map_append]
  simp [List.getLast?_concat]

theorem rowLen_pos_of_excl (p : ℕ → ℚ) (last0 n : ℕ)
    (h : rowExclAt p (rowLen p last0 n) = true) : 0 < rowLen p last0 n := by
  rcases Nat.eq_zero_or_pos (rowLen p last0 n) with h0 | h0
  · rw [h0] at h
    simp [rowExclAt] at h
  · exact h0

/-- A row whose pass reports exclusion contains an excluding cell. -/
theorem excl_cell_of_rowExcl (p : ℕ → ℚ) (last0 n : ℕ)
    (h : rowExclAt p (rowLen p last0 n) = true) :
    ∃ j, j < rowLen p last0 n ∧ p j < pThreshold := by
  obtain ⟨q, hq, hpq⟩ := (rowExclAt_true_iff p (rowLen p last0 n)).mp h
  exact ⟨q, hq, hpq⟩

@[simp] theorem cellSpec_i (p : ℕ → ℚ) (last0 i j : ℕ) : (cellSpec p last0 i j).i = i := rfl

@[simp] theorem cellSpec_j (p : ℕ → ℚ) (last0 i j : ℕ) : (cellSpec p last0 i j).j = j := rfl

@[simp] theorem cellSpec_lastBefore (p : ℕ → ℚ) (last0 i j : ℕ) :
    (cellSpec p last0 i j).lastBefore = lastAt p last0 j := rfl

@[simp] theorem cellSpec_exclBefore (p : ℕ → ℚ) (last0 i j : ℕ) :
    (cellSpec p last0 i j).exclBefore = rowExclAt p j := rfl

@[simp] theorem cellSpec_p (p : ℕ → ℚ) (last0 i j : ℕ) : (cellSpec p last0 i j).p = p j := rfl

/-- Characterization of the outer coupling loop: cell bounds, grid dimension
preservation, frame properties for untouched rows and cells, the value and
oracle form of every evaluated cell, the per-row closed form of the trace,
the monotone stop property, distinctness of evaluated cells, and the chaining
of last_excluded_mass_index through the whole trace. -/
theorem scanRowsGo_spec (pv : DM_Particle → ℚ) (masses couplings : List ℚ) (fuel : ℕ) :
    ∀ (i0 : ℕ) (grid : List (List ℚ)) (last : ℕ) (DM : DM_Particle) (R : ScanResult),
      R = scanRowsGo pv masses couplings fuel i0 grid last DM →
      i0 + fuel ≤ couplings.length →
      grid.length = couplings.length →
      (∀ row ∈ grid, row.length = masses.length) →
      (∀ e ∈ R.trace, i0 ≤ e.i ∧ e.i < i0 + fuel ∧ e.j < masses.length) ∧
      R.p_value_grid.length = grid.length ∧
      (∀ row ∈ R.p_value_grid, row.length = masses.length) ∧
      (∀ ridx, (∀ e ∈ R.trace, couplings.length - 1 - e.i ≠ ridx) →
        R.p_value_grid.getD ridx [] = grid.getD ridx []) ∧
      (∀ ridx cidx d, (∀ e ∈ R.trace, ¬(couplings.length - 1 - e.i = ridx ∧
          masses.length - 1 - e.j = cidx)) →
        (R.p_value_grid.getD ridx []).getD cidx d = (grid.getD ridx []).getD cidx d) ∧
      (∀ e ∈ R.trace,
        (R.p_value_grid.getD (couplings.length - 1 - e.i) []).getD
            (masses.length - 1 - e.j) 0 = clampP e.p ∧
          e.p = pv ⟨masses.getD (masses.length - 1 - e.j) 0,
            couplings.getD (couplings.length - 1 - e.i) 0⟩) ∧
      (∀ i, R.trace.filter (fun e => e.i == i) = [] ∨
        ∃ last0, R.trace.filter (fun e => e.i == i) =
          rowTraceSpec (rowPval pv masses (couplings.getD (couplings.length - 1 - i) 0))
            last0 masses.length i) ∧
      (∀ i i2, i0 ≤ i → i < i2 →
        (∀ e ∈ R.trace, e.i = i → ¬ e.p < pThreshold) → ∀ e ∈ R.trace, e.i ≠ i2) ∧
      R.trace.Pairwise (fun e1 e2 => e1.i ≠ e2.i ∨ e1.j ≠ e2.j) ∧
      R.trace.Chain' (fun e1 e2 => e2.lastBefore =
        if e1.p < pThreshold then e1.j else e1.lastBefore) ∧
      (∀ e, R.trace.head? = some e → e.lastBefore = last) := by
  induction fuel with
  | zero =>
    intro i0 grid last DM R hR hfuel hglen hgrows
    subst hR
    refine ⟨fun e he => absurd he (List.not_mem_nil e), rfl, hgrows, fun ridx _ => rfl,
      fun ridx cidx d _ => rfl, fun e he => absurd he (List.not_mem_nil e),
      fun i => Or.inl rfl, fun i i2 _ _ _ e he => absurd he (List.not_mem_nil e),
      List.Pairwise.nil, List.chain'_nil, fun e he => Option.noConfusion he⟩
  | succ fuel ih =>
    intro i0 grid last DM R hR hfuel hglen hgrows
    obtain ⟨ht, hexc, hlst, hrlen, hrframe, hrvals⟩ :=
      scanRowAt_spec pv masses couplings grid last DM i0
    rw [scanRowsGo_succ] at hR
    obtain ⟨c0, hc0⟩ : ∃ c, c = couplings.getD (couplings.length - 1 - i0) 0 := ⟨_, rfl⟩
    rw [← hc0] at ht hexc hlst hrframe hrvals
    obtain ⟨p0, hp0⟩ : ∃ p, p = rowPval pv masses c0 := ⟨_, rfl⟩
    rw [← hp0] at ht hexc hlst hrframe hrvals
    obtain ⟨r, hr⟩ : ∃ r, r = scanRowAt pv masses couplings grid last DM i0 := ⟨_, rfl⟩
    rw [← hr] at ht hexc hlst hrlen hrframe hrvals hR
    obtain ⟨grid1, hg1⟩ : ∃ g, g = grid.set (couplings.length - 1 - i0) r.row := ⟨_, rfl⟩
    rw [← hg1] at hR
    obtain ⟨REST, hREST⟩ : ∃ S, S = scanRowsGo pv masses couplings fuel (i0 + 1) grid1
      r.last_excluded_mass_index r.DM := ⟨_, rfl⟩
    rw [← hREST] at hR
    have hic : couplings.length - 1 - i0 < grid.length := by
      rw [hglen]
      omega
    have hrowlen0 : (grid.getD (couplings.length - 1 - i0) []).length = masses.length := by
      rw [List.getD_eq_getElem _ _ hic]
      exact hgrows _ (List.getElem_mem _)
    have hg1len : grid1.length = couplings.length := by
      rw [hg1, List.length_set, hglen]
    have hg1rows : ∀ row ∈ grid1, row.length = masses.length := by
      intro row hrow
      rw [hg1] at hrow
      rcases List.mem_or_eq_of_mem_set hrow with h | h
      · exact hgrows _ h
      · rw [h, hrlen, hrowlen0]
    obtain ⟨ih1, ih2, ih3, ih4, ih5, ih6, ih7, ih8, ih9, ih10, ih11⟩ :=
      ih (i0 + 1) grid1 r.last_excluded_mass_index r.DM REST hREST (by omega) hg1len hg1rows
    by_cases hex : r.row_exclusion = true
    · -- this row excluded: the scan continues with the next smaller coupling
      rw [if_pos hex] at hR
      have hTr : R.trace = r.trace ++ REST.trace := by rw [hR]
      have hGr : R.p_value_grid = REST.p_value_grid := by rw [hR]
      rw [hexc] at hex
      have hL0 : 0 < rowLen p0 last masses.length := rowLen_pos_of_excl _ _ _ hex
      obtain ⟨jx, hjx, hpjx⟩ := excl_cell_of_rowExcl _ _ _ hex
      have hmemrow : ∀ j, j < rowLen p0 last masses.length →
          cellSpec p0 last i0 j ∈ R.trace := by
        intro j hj
        rw [hTr]
        apply List.mem_append_left
        rw [ht, rowTraceSpec_mem]
        exact ⟨j, hj, rfl⟩
      have hno_rest_row : ∀ e2 ∈ REST.trace,
          couplings.length - 1 - e2.i ≠ couplings.length - 1 - i0 := by
        intro e2 he2
        obtain ⟨hb1, hb2, _⟩ := ih1 e2 he2
        omega
      refine ⟨?_, ?_, ?_, ?_, ?_, ?_, ?_, ?_, ?_, ?_, ?_⟩
      · -- bounds
        intro e he
        rw [hTr] at he
        rcases List.mem_append.mp he with h | h
        · rw [ht, rowTraceSpec_mem] at h
          obtain ⟨j, hj, rfl⟩ := h
          refine ⟨le_refl _, ?_, ?_⟩
          · show i0 < i0 + (fuel + 1)
            omega
          · show j < masses.length
            exact lt_of_lt_of_le hj (rowLen_le _ _ _)
        · obtain ⟨h1, h2, h3⟩ := ih1 e h
          exact ⟨by omega, by omega, h3⟩
      · -- grid length
        rw [hGr, ih2, hg1, List.length_set]
      · -- grid row lengths
        rw [hGr]
        exact ih3
      · -- row-level frame
        intro ridx hno
        have hicne : couplings.length - 1 - i0 ≠ ridx := by
          have := hno _ (hmemrow jx hjx)
          simpa using this
        have h4 := ih4 ridx (fun e he =>
          hno e (by rw [hTr]; exact List.mem_append_right _ he))
        rw [hGr, h4, hg1]
        exact getD_set_ne _ _ _ _ _ hicne
      · -- cell-level frame
        intro ridx cidx d hno
        have h5 := ih5 ridx cidx d (fun e he =>
          hno e (by rw [hTr]; exact List.mem_append_right _ he))
        rw [hGr, h5, hg1]
        by_cases hric : couplings.length - 1 - i0 = ridx
        · subst hric
          rw [getD_set_self _ _ _ _ hic]
          apply hrframe
          intro q hq
          have hmem := hmemrow q (by have := List.mem_range'_1.mp hq; omega)
          have := hno _ hmem
          simp only [cellSpec_i, cellSpec_j] at this
          intro hcontra
          exact this ⟨trivial, hcontra⟩
        · rw [getD_set_ne _ _ _ _ _ hric]
      · -- cell values and oracle form
        intro e he
        rw [hTr] at he
        rcases List.mem_append.mp he with h | h
        · rw [ht, rowTraceSpec_mem] at h
          obtain ⟨j, hj, rfl⟩ := h
          simp only [cellSpec_i, cellSpec_j, cellSpec_p]
          constructor
          · have h4 := ih4 (couplings.length - 1 - i0) hno_rest_row
            rw [hGr, h4, hg1, getD_set_self _ _ _ _ hic]
            exact hrvals hrowlen0 j (by rw [List.mem_range'_1]; omega)
          · rw [hp0, hc0]
            rfl
        · have h6 := ih6 e h
          rw [hGr]
          exact h6
      · -- per-row trace closed form
        intro i
        rw [hTr, List.filter_append]
        by_cases hii : i = i0
        · subst hii
          rw [ht, rowTraceSpec_filter_self]
          have hrest_nil : REST.trace.filter (fun e => e.i == i) = [] := by
            apply List.filter_eq_nil_iff.mpr
            intro e he
            have h1 := (ih1 e he).1
            simp only [beq_iff_eq]
            omega
          rw [hrest_nil, List.append_nil]
          exact Or.inr ⟨last, by rw [hp0, hc0]⟩
        · rw [ht, rowTraceSpec_filter_ne _ _ _ _ _ (fun h => hii h.symm), List.nil_append]
          exact ih7 i
      · -- monotone stop
        intro i i2 hi0i hii2 hnop e he
        rcases Nat.eq_or_lt_of_le hi0i with rfl | hgt
        · exfalso
          have hmem := hmemrow jx hjx
          have := hnop _ hmem rfl
          exact this hpjx
        · rw [hTr] at he
          rcases List.mem_append.mp he with h | h
          · rw [ht, rowTraceSpec_mem] at h
            obtain ⟨j, hj, rfl⟩ := h
            show i0 ≠ i2
            omega
          · refine ih8 i i2 (by omega) hii2 ?_ e h
            intro e2 he2 he2i
            exact hnop e2 (by rw [hTr]; exact List.mem_append_right _ he2) he2i
      · -- pairwise distinct cells
        rw [hTr]
        apply List.pairwise_append.mpr
        refine ⟨by rw [ht]; exact rowTraceSpec_pairwise _ _ _ _, ih9, ?_⟩
        intro e1 h1 e2 h2
        left
        rw [ht, rowTraceSpec_mem] at h1
        obtain ⟨j, hj, rfl⟩ := h1
        have := (ih1 e2 h2).1
        simp only [cellSpec_i]
        omega
      · -- chaining of last_excluded_mass_index
        rw [hTr]
        apply List.chain'_append.mpr
        refine ⟨by rw [ht]; exact rowTraceSpec_chain _ _ _ _, ih10, ?_⟩
        intro x hx y hy
        rw [ht, rowTraceSpec_getLast _ _ _ _ hL0] at hx
        have hx2 : cellSpec p0 last i0 (rowLen p0 last masses.length - 1) = x := by
          simpa using hx
        subst hx2
        have hy2 := ih11 y hy
        rw [hlst] at hy2
        simp only [cellSpec_p, cellSpec_j, cellSpec_lastBefore]
        rw [hy2]
        have hsplit : rowLen p0 last masses.length =
            (rowLen p0 last masses.length - 1) + 1 := by omega
        conv_lhs => rw [hsplit]
        rfl
      · -- first evaluation carries the inherited last_excluded_mass_index
        intro e he
        rw [hTr, ht] at he
        have hh := rowTraceSpec_head p0 last masses.length i0 hL0
        have hhead : (rowTraceSpec p0 last masses.length i0 ++ REST.trace).head? =
            some (cellSpec p0 last i0 0) := by
          cases hrt : rowTraceSpec p0 last masses.length i0 with
          | nil => rw [hrt] at hh; simp at hh
          | cons a t =>
            rw [hrt] at hh
            rw [List.cons_append, List.head?_cons]
            simpa using hh
        rw [hhead] at he
        rw [← Option.some.inj he]
        rfl
    · -- this row did not exclude: the scan stops here
      rw [if_neg hex] at hR
      have hTr : R.trace = r.trace := by rw [hR]
      have hGr : R.p_value_grid = grid1 := by rw [hR]
      refine ⟨?_, ?_, ?_, ?_, ?_, ?_, ?_, ?_, ?_, ?_, ?_⟩
      · -- bounds
        intro e he
        rw [hTr, ht, rowTraceSpec_mem] at he
        obtain ⟨j, hj, rfl⟩ := he
        refine ⟨le_refl _, ?_, ?_⟩
        · show i0 < i0 + (fuel + 1)
          omega
        · show j < masses.length
          exact lt_of_lt_of_le hj (rowLen_le _ _ _)
      · -- grid length
        rw [hGr, hg1, List.length_set]
      · -- grid row lengths
        rw [hGr]
        exact hg1rows
      · -- row-level frame
        intro ridx hno
        rcases Nat.eq_zero_or_pos (rowLen p0 last masses.length) with hL0 | hL0
        · have hn0 : masses.length = 0 := by
            by_contra hn
            have := rowLen_pos p0 last masses.length (Nat.pos_of_ne_zero hn)
            omega
          have hrr : r.row = grid.getD (couplings.length - 1 - i0) [] := by
            rw [hr]
            unfold scanRowAt
            rw [hn0]
            rfl
          rw [hGr, hg1, hrr, set_getD_eq_self]
        · have hicne : couplings.length - 1 - i0 ≠ ridx := by
            have hcell : cellSpec p0 last i0 0 ∈ R.trace := by
              rw [hTr, ht, rowTraceSpec_mem]
              exact ⟨0, hL0, rfl⟩
            have := hno _ hcell
            simpa using this
          rw [hGr, hg1]
          exact getD_set_ne _ _ _ _ _ hicne
      · -- cell-level frame
        intro ridx cidx d hno
        rw [hGr, hg1]
        by_cases hric : couplings.length - 1 - i0 = ridx
        · subst hric
          rw [getD_set_self _ _ _ _ hic]
          apply hrframe
          intro q hq
          have hcell : cellSpec p0 last i0 q ∈ R.trace := by
            rw [hTr, ht, rowTraceSpec_mem]
            exact ⟨q, by have := List.mem_range'_1.mp hq; omega, rfl⟩
          have := hno _ hcell
          simp only [cellSpec_i, cellSpec_j] at this
          intro hcontra
          exact this ⟨trivial, hcontra⟩
        · rw [getD_set_ne _ _ _ _ _ hric]
      · -- cell values and oracle form
        intro e he
        rw [hTr, ht, rowTraceSpec_mem] at he
        obtain ⟨j, hj, rfl⟩ := he
        simp only [cellSpec_i, cellSpec_j, cellSpec_p]
        constructor
        · rw [hGr, hg1, getD_set_self _ _ _ _ hic]
          exact hrvals hrowlen0 j (by rw [List.mem_range'_1]; omega)
        · rw [hp0, hc0]
          rfl
      · -- per-row trace closed form
        intro i
        by_cases hii : i = i0
        · subst hii
          rw [hTr, ht, rowTraceSpec_filter_self]
          exact Or.inr ⟨last, by rw [hp0, hc0]⟩
        · rw [hTr, ht, rowTraceSpec_filter_ne _ _ _ _ _ (fun h => hii h.symm)]
          exact Or.inl rfl
      · -- monotone stop
        intro i i2 hi0i hii2 hnop e he
        rw [hTr, ht, rowTraceSpec_mem] at he
        obtain ⟨j, hj, rfl⟩ := he
        show i0 ≠ i2
        omega
      · -- pairwise distinct cells
        rw [hTr, ht]
        exact rowTraceSpec_pairwise _ _ _ _
      · -- chaining of last_excluded_mass_index
        rw [hTr, ht]
        exact rowTraceSpec_chain _ _ _ _
      · -- first evaluation carries the inherited last_excluded_mass_index
        intro e he
        rw [hTr, ht] at he
        rcases Nat.eq_zero_or_pos (rowLen p0 last masses.length) with hL0 | hL0
        · have hnil : rowTraceSpec p0 last masses.length i0 = [] := by
            unfold rowTraceSpec
            rw [hL0]
            rfl
          rw [hnil] at he
          simp at he
        · rw [rowTraceSpec_head _ _ _ _ hL0] at he
          rw [← Option.some.inj he]
          rfl

theorem breakAt_true_iff (p : ℕ → ℚ) (last0 j : ℕ) :
    breakAt p last0 j = true ↔
      ¬ p j < pThreshold ∧ (rowExclAt p j = true ∨ lastAt p last0 j + 1 < j) := by
  unfold breakAt
  rw [Bool.and_eq_true, Bool.or_eq_true, Bool.not_eq_true']
  rw [decide_eq_false_iff_not, decide_eq_true_eq]

theorem breakAt_false_of_p_lt (p : ℕ → ℚ) (last0 j : ℕ) (h : p j < pThreshold) :
    breakAt p last0 j = false := by
  unfold breakAt
  rw [decide_eq_true h]
  rfl

/-- A row stops exactly after cell j (with a smaller mass remaining) iff cell
j is evaluated and its break condition holds. -/
theorem rowLen_eq_succ_iff (p : ℕ → ℚ) (last0 n j : ℕ) (hj : j + 1 < n) :
    rowLen p last0 n = j + 1 ↔ (j < rowLen p last0 n ∧ breakAt p last0 j = true) := by
  unfold rowLen lenFrom
  cases hf : (List.range' 0 n).find? (breakAt p last0) with
  | some jb =>
    obtain ⟨hb1, hb2, hb3, hb4⟩ := find?_range'_some _ _ _ _ hf
    show jb + 1 - 0 = j + 1 ↔ j < jb + 1 - 0 ∧ breakAt p last0 j = true
    constructor
    · intro hL
      have hjb : jb = j := by omega
      subst hjb
      exact ⟨by omega, hb1⟩
    · rintro ⟨hjL, hbj⟩
      have hjjb : j = jb := by
        by_contra hne
        have := hb4 j (by omega) (by omega)
        rw [this] at hbj
        exact Bool.noConfusion hbj
      omega
  | none =>
    have hnone := List.find?_eq_none.mp hf
    show n = j + 1 ↔ j < n ∧ breakAt p last0 j = true
    constructor
    · intro hL
      omega
    · rintro ⟨hjL, hbj⟩
      exact absurd hbj (hnone j (by rw [List.mem_range'_1]; omega))

/-- An evaluated cell that does not break, with a smaller mass remaining, is
followed by the evaluation of that smaller mass. -/
theorem lt_rowLen_succ_of_not_break (p : ℕ → ℚ) (last0 n j : ℕ) (hjn : j + 1 < n)
    (hjL : j < rowLen p last0 n) (hb : breakAt p last0 j = false) :
    j + 1 < rowLen p last0 n := by
  by_contra hcon
  have hL : rowLen p last0 n = j + 1 := by omega
  have := (rowLen_eq_succ_iff p last0 n j hjn).mp hL
  rw [hb] at this
  exact Bool.noConfusion this.2

/-- C3: the first pipeline evaluation of a Perform_Scan call sees
last_excluded_mass_index = DM_masses.size() (its once-per-call initial
value), and across every pair of consecutive evaluations of the whole call —
also across row boundaries, so the value is never reset between coupling
rows — it becomes the previous cell's descending-mass loop counter j exactly
when that cell had p < 0.1, and is otherwise carried over unchanged; through
that carried value it enters the break condition of subsequent rows. -/
theorem C3_last_excluded_mass_index (pv : DM_Particle → ℚ) (s : Parameter_Scan)
    (DM : DM_Particle)
    (hglen : s.p_value_grid.length = s.couplings.length)
    (hgrows : ∀ row ∈ s.p_value_grid, row.length = s.DM_masses.length) :
    (∀ e, (Perform_Scan_trace pv s DM).head? = some e →
      e.lastBefore = s.DM_masses.length) ∧
    (Perform_Scan_trace pv s DM).Chain'
      (fun e1 e2 => e2.lastBefore = if e1.p < pThreshold then e1.j else e1.lastBefore) := by
  unfold Perform_Scan_trace
  obtain ⟨-, -, -, -, -, -, -, -, -, h10, h11⟩ :=
    scanRowsGo_spec pv s.DM_masses s.couplings s.couplings.length 0 s.p_value_grid
      s.DM_masses.length DM _ rfl (by omega) hglen hgrows
  exact ⟨h11, h10⟩

/-- C9: every p-value computed at a grid cell during Perform_Scan is the
pipeline oracle's value at that cell's mass and coupling, and the cell is
stored clamped: exactly 0.0 if p < 1e-100, and p unchanged otherwise. -/
theorem C9_clamping (pv : DM_Particle → ℚ) (s : Parameter_Scan) (DM : DM_Particle)
    (hglen : s.p_value_grid.length = s.couplings.length)
    (hgrows : ∀ row ∈ s.p_value_grid, row.length = s.DM_masses.length) :
    ∀ e ∈ Perform_Scan_trace pv s DM,
      e.p = pv ⟨s.DM_masses.getD (s.DM_masses.length - 1 - e.j) 0,
        s.couplings.getD (s.couplings.length - 1 - e.i) 0⟩ ∧
      ((Perform_Scan pv s DM).1.p_value_grid.getD (s.couplings.length - 1 - e.i) []).getD
          (s.DM_masses.length - 1 - e.j) 0 =
        (if e.p < pFloor then 0 else e.p) := by
  unfold Perform_Scan_trace
  intro e he
  obtain ⟨-, -, -, -, -, h6, -⟩ :=
    scanRowsGo_spec pv s.DM_masses s.couplings s.couplings.length 0 s.p_value_grid
      s.DM_masses.length DM _ rfl (by omega) hglen hgrows
  obtain ⟨hcell, horacle⟩ := h6 e he
  exact ⟨horacle, hcell⟩

/-- Concrete pipeline oracle used by the witnesses: models a detector that
excludes (p = 0.05) iff the mass is at most 10 and the coupling at least 5,
and otherwise reports p = 0.9. -/
def pvSample : DM_Particle → ℚ :=
  fun d => if d.mass ≤ 10 ∧ 5 ≤ d.coupling then mkRat 1 20 else mkRat 9 10

/-- Concrete scan session used by the witnesses. -/
def scanSample : Parameter_Scan := Parameter_Scan.init [1, 10, 100] [1, 5, 9] 100

/-- Concrete particle state used by the witnesses. -/
def dmSample : DM_Particle := ⟨3, 7⟩

/-- The evaluation trace of the concrete session: the strongest coupling 9
excludes masses 10 and 1, coupling 5 likewise, and coupling 1 excludes
nothing, which stops the scan. -/
def traceSample : List CellEval :=
  [⟨0, 0, 3, false, mkRat 9 10⟩, ⟨0, 1, 3, false, mkRat 1 20⟩, ⟨0, 2, 1, true, mkRat 1 20⟩,
    ⟨1, 0, 2, false, mkRat 9 10⟩, ⟨1, 1, 2, false, mkRat 1 20⟩, ⟨1, 2, 1, true, mkRat 1 20⟩,
    ⟨2, 0, 2, false, mkRat 9 10⟩, ⟨2, 1, 2, false, mkRat 9 10⟩, ⟨2, 2, 2, false, mkRat 9 10⟩]

theorem traceSample_eq :
    Perform_Scan_trace pvSample scanSample dmSample = traceSample := by decide

/-- C3 witness: the theorem applied to the concrete session. -/
theorem C3_witness :
    (scanSample.p_value_grid.length = scanSample.couplings.length ∧
      (∀ row ∈ scanSample.p_value_grid, row.length = scanSample.DM_masses.length)) ∧
    ((∀ e, (Perform_Scan_trace pvSample scanSample dmSample).head? = some e →
        e.lastBefore = scanSample.DM_masses.length) ∧
      (Perform_Scan_trace pvSample scanSample dmSample).Chain'
        (fun e1 e2 => e2.lastBefore = if e1.p < pThreshold then e1.j else e1.lastBefore)) :=
  ⟨⟨by decide, by decide⟩,
    C3_last_excluded_mass_index pvSample scanSample dmSample (by decide) (by decide)⟩

/-- C9 witness: the theorem applied to the concrete session at its first
evaluated cell. -/
theorem C9_witness :
    ((scanSample.p_value_grid.length = scanSample.couplings.length ∧
      (∀ row ∈ scanSample.p_value_grid, row.length = scanSample.DM_masses.length)) ∧
      (⟨0, 0, 3, false, mkRat 9 10⟩ : CellEval) ∈ Perform_Scan_trace pvSample scanSample dmSample) ∧
    ((⟨0, 0, 3, false, mkRat 9 10⟩ : CellEval).p =
      pvSample ⟨scanSample.DM_masses.getD (scanSample.DM_masses.length - 1 - 0) 0,
        scanSample.couplings.getD (scanSample.couplings.length - 1 - 0) 0⟩ ∧
      ((Perform_Scan pvSample scanSample dmSample).1.p_value_grid.getD
          (scanSample.couplings.length - 1 - 0) []).getD
          (scanSample.DM_masses.length - 1 - 0) 0 =
        (if (⟨0, 0, 3, false, mkRat 9 10⟩ : CellEval).p < pFloor then 0
          else (⟨0, 0, 3, false, mkRat 9 10⟩ : CellEval).p)) :=
  ⟨⟨⟨by decide, by decide⟩, by rw [traceSample_eq]; exact List.mem_cons_self _ _⟩,
    C9_clamping pvSample scanSample dmSample (by decide) (by decide) _
      (by rw [traceSample_eq]; exact List.mem_cons_self _ _)⟩

/-- C2: if every evaluated cell of coupling row i has p-value at least the
threshold (so the row completes or breaks early with row_exclusion still
false), the scan stops entirely: no pipeline evaluation is performed for any
smaller coupling (row counter i2 > i), and the grid row belonging to that
smaller coupling is left exactly as it was before the call. -/
theorem C2_monotone_stop (pv : DM_Particle → ℚ) (s : Parameter_Scan) (DM : DM_Particle)
    (hglen : s.p_value_grid.length = s.couplings.length)
    (hgrows : ∀ row ∈ s.p_value_grid, row.length = s.DM_masses.length)
    (i i2 : ℕ) (hii2 : i < i2) (hi2 : i2 < s.couplings.length)
    (hnop : ∀ e ∈ Perform_Scan_trace pv s DM, e.i = i → ¬ e.p < pThreshold) :
    (∀ e ∈ Perform_Scan_trace pv s DM, e.i ≠ i2) ∧
    (Perform_Scan pv s DM).1.p_value_grid.getD (s.couplings.length - 1 - i2) [] =
      s.p_value_grid.getD (s.couplings.length - 1 - i2) [] := by
  unfold Perform_Scan_trace at hnop ⊢
  obtain ⟨h1, -, -, h4, -, -, -, h8, -, -, -⟩ :=
    scanRowsGo_spec pv s.DM_masses s.couplings s.couplings.length 0 s.p_value_grid
      s.DM_masses.length DM _ rfl (by omega) hglen hgrows
  have hstop := h8 i i2 (Nat.zero_le i) hii2 hnop
  refine ⟨hstop, ?_⟩
  exact h4 _ (fun e he => by
    have hne := hstop e he
    obtain ⟨-, hb2, -⟩ := h1 e he
    omega)

/-- Pipeline oracle that never excludes: every cell reports p = 0.9, so the
very first coupling row fails to exclude and the scan stops after it. -/
def pvSample2 : DM_Particle → ℚ := fun _ => mkRat 9 10

/-- C2 witness: with the never-excluding oracle, row 0 yields no exclusion,
row 1 is never evaluated and its grid row is untouched. -/
theorem C2_witness :
    ((scanSample.p_value_grid.length = scanSample.couplings.length ∧
      (∀ row ∈ scanSample.p_value_grid, row.length = scanSample.DM_masses.length)) ∧
      ((0 : ℕ) < 1 ∧ 1 < scanSample.couplings.length) ∧
      (∀ e ∈ Perform_Scan_trace pvSample2 scanSample dmSample,
        e.i = 0 → ¬ e.p < pThreshold)) ∧
    ((∀ e ∈ Perform_Scan_trace pvSample2 scanSample dmSample, e.i ≠ 1) ∧
      (Perform_Scan pvSample2 scanSample dmSample).1.p_value_grid.getD
          (scanSample.couplings.length - 1 - 1) [] =
        scanSample.p_value_grid.getD (scanSample.couplings.length - 1 - 1) []) :=
  ⟨⟨⟨by decide, by decide⟩, ⟨by decide, by decide⟩, by decide⟩,
    C2_monotone_stop pvSample2 scanSample dmSample (by decide) (by decide) 0 1 (by decide)
      (by decide) (by decide)⟩

/-- C10: during one Perform_Scan call every evaluated grid cell is distinct
(each cell is written at most once); every cell to which no evaluation maps
keeps exactly its pre-call value; and on a session whose grid is all 1.0 — as
a freshly constructed session is — a never-visited cell of the
largest-coupling grid row still reads 1.0 after the call, so the inclusion
guard of Limit_Curve rejects that mass column for every certainty level
CL >= 0. -/
theorem C10_write_once_and_frame (pv : DM_Particle → ℚ) (s : Parameter_Scan)
    (DM : DM_Particle)
    (hglen : s.p_value_grid.length = s.couplings.length)
    (hgrows : ∀ row ∈ s.p_value_grid, row.length = s.DM_masses.length) :
    (Perform_Scan_trace pv s DM).Pairwise (fun e1 e2 => e1.i ≠ e2.i ∨ e1.j ≠ e2.j) ∧
    (∀ ridx cidx d, (∀ e ∈ Perform_Scan_trace pv s DM,
        ¬(s.couplings.length - 1 - e.i = ridx ∧ s.DM_masses.length - 1 - e.j = cidx)) →
      ((Perform_Scan pv s DM).1.p_value_grid.getD ridx []).getD cidx d =
        (s.p_value_grid.getD ridx []).getD cidx d) ∧
    (∀ mi, mi < s.DM_masses.length →
      (∀ x ∈ s.p_value_grid, ∀ y ∈ x, y = 1) →
      0 < s.couplings.length →
      (∀ e ∈ Perform_Scan_trace pv s DM,
        ¬(s.couplings.length - 1 - e.i = s.couplings.length - 1 ∧
          s.DM_masses.length - 1 - e.j = mi)) →
      ((Perform_Scan pv s DM).1.p_value_grid.getD (s.couplings.length - 1) []).getD mi 1 = 1 ∧
      ∀ CL, 0 ≤ CL → Limit_Curve_check (Perform_Scan pv s DM).1 CL mi = false) := by
  unfold Perform_Scan_trace
  obtain ⟨-, h2, -, -, h5, -, -, -, h9, -, -⟩ :=
    scanRowsGo_spec pv s.DM_masses s.couplings s.couplings.length 0 s.p_value_grid
      s.DM_masses.length DM _ rfl (by omega) hglen hgrows
  refine ⟨h9, fun ridx cidx d hno => h5 ridx cidx d hno, ?_⟩
  intro mi hmi hone hnc hno
  have hframe := h5 (s.couplings.length - 1) mi 1 hno
  have hinit : (s.p_value_grid.getD (s.couplings.length - 1) []).getD mi 1 = 1 := by
    have hlt : s.couplings.length - 1 < s.p_value_grid.length := by omega
    rw [List.getD_eq_getElem _ _ hlt]
    have hrlen := hgrows _ (List.getElem_mem hlt)
    rw [List.getD_eq_getElem _ _ (by rw [hrlen]; exact hmi)]
    exact hone _ (List.getElem_mem hlt) _ (List.getElem_mem _)
  have hcell : ((Perform_Scan pv s DM).1.p_value_grid.getD
      (s.couplings.length - 1) []).getD mi 1 = 1 := hframe.trans hinit
  refine ⟨hcell, ?_⟩
  intro CL hCL
  unfold Limit_Curve_check
  apply decide_eq_false
  intro hlt
  have hfinlen : (Perform_Scan pv s DM).1.p_value_grid.length = s.couplings.length :=
    h2.trans hglen
  rw [getLastD_eq_getD_length_sub_one, hfinlen, hcell] at hlt
  linarith

/-- Pipeline oracle for the C10 witness: excludes exactly the mass 100, so
every row evaluates mass 100 (p = 0.05) and then mass 10 (p = 0.9), breaks
there, and never visits mass 1 — leaving the mass-1 column unwritten. -/
def pvSample3 : DM_Particle → ℚ :=
  fun d => if 100 ≤ d.mass then mkRat 1 20 else mkRat 9 10

/-- C10 witness: the theorem applied to the concrete session, including the
fresh-session clause at the never-visited mass column 0. -/
theorem C10_witness :
    ((scanSample.p_value_grid.length = scanSample.couplings.length ∧
      (∀ row ∈ scanSample.p_value_grid, row.length = scanSample.DM_masses.length)) ∧
      (0 : ℕ) < scanSample.DM_masses.length ∧
      (∀ x ∈ scanSample.p_value_grid, ∀ y ∈ x, y = 1) ∧
      0 < scanSample.couplings.length ∧
      (∀ e ∈ Perform_Scan_trace pvSample3 scanSample dmSample,
        ¬(scanSample.couplings.length - 1 - e.i = scanSample.couplings.length - 1 ∧
          scanSample.DM_masses.length - 1 - e.j = 0))) ∧
    (((Perform_Scan pvSample3 scanSample dmSample).1.p_value_grid.getD
        (scanSample.couplings.length - 1) []).getD 0 1 = 1 ∧
      ∀ CL, 0 ≤ CL →
        Limit_Curve_check (Perform_Scan pvSample3 scanSample dmSample).1 CL 0 = false) :=
  ⟨⟨⟨by decide, by decide⟩, by decide, by decide, by decide, by decide⟩,
    (C10_write_once_and_frame pvSample3 scanSample dmSample (by decide) (by decide)).2.2
      0 (by decide) (by decide) (by decide) (by decide)⟩

/-- C1: within coupling row i of a Perform_Scan call — its trace entries,
whose mass loop counters j form a prefix 0, 1, ... — when a smaller mass
j + 1 exists: the loop breaks right after the cell at counter j (j is
evaluated but j + 1 is not) iff the cell's p-value is not below the 0.1
threshold and, at that moment, either the row had already achieved exclusion
(exclBefore) or j exceeds last_excluded_mass_index + 1 (lastBefore);
a cell with p < 0.1 never triggers the break; and exclBefore at any cell is
exactly the existence of an earlier excluding cell in the same row. -/
theorem C1_row_break (pv : DM_Particle → ℚ) (s : Parameter_Scan) (DM : DM_Particle)
    (hglen : s.p_value_grid.length = s.couplings.length)
    (hgrows : ∀ row ∈ s.p_value_grid, row.length = s.DM_masses.length)
    (i j : ℕ) (hjn : j + 1 < s.DM_masses.length) :
    (((∃ e ∈ (Perform_Scan_trace pv s DM).filter (fun e => e.i == i), e.j = j) ∧
        ¬ (∃ e ∈ (Perform_Scan_trace pv s DM).filter (fun e => e.i == i), e.j = j + 1)) ↔
      (∃ e ∈ (Perform_Scan_trace pv s DM).filter (fun e => e.i == i),
        e.j = j ∧ ¬ e.p < pThreshold ∧ (e.exclBefore = true ∨ e.lastBefore + 1 < e.j))) ∧
    (∀ e ∈ (Perform_Scan_trace pv s DM).filter (fun e => e.i == i),
      e.j = j → e.p < pThreshold →
      ∃ e2 ∈ (Perform_Scan_trace pv s DM).filter (fun e => e.i == i), e2.j = j + 1) ∧
    (∀ e ∈ (Perform_Scan_trace pv s DM).filter (fun e => e.i == i),
      (e.exclBefore = true ↔
        ∃ e2 ∈ (Perform_Scan_trace pv s DM).filter (fun e => e.i == i),
          e2.j < e.j ∧ e2.p < pThreshold)) := by
  unfold Perform_Scan_trace
  obtain ⟨-, -, -, -, -, -, h7, -, -, -, -⟩ :=
    scanRowsGo_spec pv s.DM_masses s.couplings s.couplings.length 0 s.p_value_grid
      s.DM_masses.length DM _ rfl (by omega) hglen hgrows
  rcases h7 i with hnil | ⟨last0, hform⟩
  · rw [hnil]
    simp
  · obtain ⟨p1, hp1⟩ : ∃ p, p = rowPval pv s.DM_masses
      (s.couplings.getD (s.couplings.length - 1 - i) 0) := ⟨_, rfl⟩
    rw [← hp1] at hform
    rw [hform]
    refine ⟨⟨?_, ?_⟩, ?_, ?_⟩
    · -- break implies the break condition at the last evaluated cell
      rintro ⟨⟨e, he, hej⟩, hne⟩
      rw [rowTraceSpec_mem] at he
      obtain ⟨j2, hj2, rfl⟩ := he
      simp only [cellSpec_j] at hej
      subst hej
      have hbreak : breakAt p1 last0 j2 = true := by
        by_contra hb
        have hb2 : breakAt p1 last0 j2 = false := by
          revert hb
          cases breakAt p1 last0 j2 <;> simp
        have hlt := lt_rowLen_succ_of_not_break p1 last0 s.DM_masses.length j2 hjn hj2 hb2
        exact hne ⟨cellSpec p1 last0 i (j2 + 1),
          by rw [rowTraceSpec_mem]; exact ⟨j2 + 1, hlt, rfl⟩, rfl⟩
      obtain ⟨hp, hrest⟩ := (breakAt_true_iff p1 last0 j2).mp hbreak
      exact ⟨cellSpec p1 last0 i j2,
        by rw [rowTraceSpec_mem]; exact ⟨j2, hj2, rfl⟩, rfl, hp, hrest⟩
    · -- the break condition at an evaluated cell stops the row there
      rintro ⟨e, he, hej, hp, hrest⟩
      rw [rowTraceSpec_mem] at he
      obtain ⟨j2, hj2, rfl⟩ := he
      simp only [cellSpec_j] at hej
      subst hej
      have hbreak : breakAt p1 last0 j2 = true :=
        (breakAt_true_iff p1 last0 j2).mpr ⟨hp, hrest⟩
      have hL : rowLen p1 last0 s.DM_masses.length = j2 + 1 :=
        (rowLen_eq_succ_iff p1 last0 s.DM_masses.length j2 hjn).mpr ⟨hj2, hbreak⟩
      constructor
      · exact ⟨cellSpec p1 last0 i j2,
          by rw [rowTraceSpec_mem]; exact ⟨j2, hj2, rfl⟩, rfl⟩
      · rintro ⟨e2, he2, hej2⟩
        rw [rowTraceSpec_mem] at he2
        obtain ⟨j3, hj3, rfl⟩ := he2
        simp only [cellSpec_j] at hej2
        omega
    · -- an excluding cell never breaks
      intro e he hej hp
      rw [rowTraceSpec_mem] at he
      obtain ⟨j2, hj2, rfl⟩ := he
      simp only [cellSpec_j] at hej
      subst hej
      have hb := breakAt_false_of_p_lt p1 last0 j2 hp
      have hlt := lt_rowLen_succ_of_not_break p1 last0 s.DM_masses.length j2 hjn hj2 hb
      exact ⟨cellSpec p1 last0 i (j2 + 1),
        by rw [rowTraceSpec_mem]; exact ⟨j2 + 1, hlt, rfl⟩, rfl⟩
    · -- exclBefore records an earlier excluding cell of the same row
      intro e he
      rw [rowTraceSpec_mem] at he
      obtain ⟨j2, hj2, rfl⟩ := he
      simp only [cellSpec_exclBefore, cellSpec_j, cellSpec_p]
      rw [rowExclAt_true_iff]
      constructor
      · rintro ⟨q, hq, hpq⟩
        exact ⟨cellSpec p1 last0 i q,
          by rw [rowTraceSpec_mem]; exact ⟨q, by omega, rfl⟩, hq, hpq⟩
      · rintro ⟨e2, he2, hlt, hpe2⟩
        rw [rowTraceSpec_mem] at he2
        obtain ⟨q, hq, rfl⟩ := he2
        simp only [cellSpec_j, cellSpec_p] at hlt hpe2
        exact ⟨q, hlt, hpe2⟩

/-- C1 witness: the theorem applied to the concrete session at row 0,
cell 0. -/
theorem C1_witness :
    ((scanSample.p_value_grid.length = scanSample.couplings.length ∧
      (∀ row ∈ scanSample.p_value_grid, row.length = scanSample.DM_masses.length)) ∧
      0 + 1 < scanSample.DM_masses.length) ∧
    ((((∃ e ∈ (Perform_Scan_trace pvSample scanSample dmSample).filter
          (fun e => e.i == 0), e.j = 0) ∧
        ¬ (∃ e ∈ (Perform_Scan_trace pvSample scanSample dmSample).filter
          (fun e => e.i == 0), e.j = 0 + 1)) ↔
      (∃ e ∈ (Perform_Scan_trace pvSample scanSample dmSample).filter
          (fun e => e.i == 0),
        e.j = 0 ∧ ¬ e.p < pThreshold ∧ (e.exclBefore = true ∨ e.lastBefore + 1 < e.j))) ∧
    (∀ e ∈ (Perform_Scan_trace pvSample scanSample dmSample).filter (fun e => e.i == 0),
      e.j = 0 → e.p < pThreshold →
      ∃ e2 ∈ (Perform_Scan_trace pvSample scanSample dmSample).filter
        (fun e => e.i == 0), e2.j = 0 + 1) ∧
    (∀ e ∈ (Perform_Scan_trace pvSample scanSample dmSample).filter (fun e => e.i == 0),
      (e.exclBefore = true ↔
        ∃ e2 ∈ (Perform_Scan_trace pvSample scanSample dmSample).filter
          (fun e => e.i == 0),
          e2.j < e.j ∧ e2.p < pThreshold))) :=
  ⟨⟨⟨by decide, by decide⟩, by decide⟩,
    C1_row_break pvSample scanSample dmSample (by decide) (by decide) 0 0 (by decide)⟩

end DaMaSCUS_SUN
